import Mathlib

/-!
Raspbootin: the serial boot loader of `raspbootin/main.cc`.

A shallow embedding of `kernel_main` and of the helpers it relies on: `find`, and
the C library functions `memcpy`, `malloc` and `free` that the file supplies for
the decoder.

* The byte channel (`UART::getc`, `UART::puts`), the logging sink (`kprintf`,
  `atags->print_all()`), the decoder (`uncompress`, `crc32`) and the loaded image
  (`fn`) are external to `main.cc`.  Every interaction with them is recorded, in
  program order, as an `Event` of the run's trace.
* The host's input is a finite list of octets.  `UART::getc` blocks, so when the
  list is exhausted the run stops with outcome `blocked`: the trace is then what
  the loader has done up to the read that never completes.
* 32-bit machine words are natural numbers reduced `% 2 ^ 32` where the source
  can wrap.
-/

namespace Raspbootin

/-! ## Data model -/

/-- One octet, as delivered by `UART::getc` and stored through a `uint8_t*`. -/
abbrev Byte := Fin 256

/-- Physical memory: one octet per address. -/
abbrev Mem := Nat → Byte

/-- Store of one octet, `ptr[i] = b`. -/
def Mem.write (m : Mem) (a : Nat) (b : Byte) : Mem :=
  fun x => if x = a then b else m x

/-- The constant `#define LOADER_ADDR 0x2000000`. -/
def LOADER_ADDR : Nat := 0x2000000

/-- The constant `#define MAX_SIZE 0x200000`. -/
def MAX_SIZE : Nat := 0x200000

/-- The text `const char hello[]`. -/
def hello : String := "\r\nRaspbootin V1.1\r\n"

/-- The text `const char halting[]`. -/
def halting : String := "\r\n*** system halting ***"

/-- Modelled from the spec: `miniz.h` is not part of the source tree; `Z_OK` is the
decoder's status `OK`, the value zero of its closed status enumeration. -/
def Z_OK : Int := 0

/-- Modelled from the spec: `archinfo.h` is not part of the source tree; a board
variant carries a human-readable model name, the peripheral base address and the
LED identification used for diagnostics, in the order of the constructor calls in
`arch_infos`. -/
structure ArchInfo where
  model : String
  base : Nat
  led : Nat
  flag : Nat
  deriving DecidableEq, Repr

/-- The indices `ArchInfo::RPI`, `ArchInfo::RPIplus`, `ArchInfo::RPI2` into `arch_infos`. -/
inductive Arch where
  | RPI
  | RPIplus
  | RPI2
  deriving DecidableEq, Repr

/-- The table `arch_infos`. -/
def arch_infos : Arch → ArchInfo
  | .RPI => ⟨"Raspberry Pi b", 0x20000000, 16, 1⟩
  | .RPIplus => ⟨"Raspberry Pi b+", 0x20000000, 47, 0⟩
  | .RPI2 => ⟨"Raspberry Pi b 2", 0x3F000000, 47, 0⟩

/-! ## The C library functions supplied for the decoder -/

/-- The loop `for(int i = 0; i < n; ++i) pdest[i] = psrc[i];` of `memcpy`, entered
with the counter at `i`.  `n` is a `size_t`, so its 32-bit value is compared; the
counter is held as its 32-bit pattern, as the unsigned comparison and the address
computation see it. -/
def memcpy_loop (dest src n : Nat) (i : Nat) (mem : Mem) : Mem :=
  if i < n % 2 ^ 32 then
    memcpy_loop dest src n ((i + 1) % 2 ^ 32)
      (mem.write ((dest + i) % 2 ^ 32) (mem ((src + i) % 2 ^ 32)))
  else mem
termination_by n % 2 ^ 32 - i
decreasing_by omega

/-- The function `memcpy(dest, src, n)`: the returned pointer and the memory left. -/
def memcpy (mem : Mem) (dest src n : Nat) : Nat × Mem :=
  (dest, memcpy_loop dest src n 0 mem)

/-- The initial value `(char*)(0x8000+MAX_SIZE*2)` of the static `base` of `malloc`. -/
def malloc_base : Nat := 0x8000 + MAX_SIZE * 2

/-- The function `malloc(size)` on the static pointer `base`: the returned pointer
`retval = base` and the new value of `base` after `base += size`, a 32-bit pointer. -/
def malloc (base size : Nat) : Nat × Nat :=
  (base, (base + size) % 2 ^ 32)

/-- The function `free(ptr)`, whose body is `(void)ptr;`: `base` is left as it is. -/
def free (base _ptr : Nat) : Nat := base

/-! ## `find` -/

/-- The inner loop of `find`, `while(*p && *p == *q) { ++p; ++q; }`, followed by the
test `*q == 0`.  A C string is the list of its characters before the terminating
NUL, so the empty list stands for a pointer at the terminator. -/
def matchToken : List Char → List Char → Bool
  | _, [] => true
  | [], _ :: _ => false
  | c :: p, d :: q => if c = d then matchToken p q else false

/-- The function `find(str, token)`: the result is the suffix of `str` that the
returned pointer designates, or `none` for `NULL`. -/
def find : List Char → List Char → Option (List Char)
  | [], _ => none
  | c :: str, token => if matchToken (c :: str) token then some (c :: str) else find str token

/-! ## `find` on pointers -/

/-- The character NUL, which terminates a C string. -/
def NUL : Char := Char.ofNat 0

/-- The inner loop of `find`, `while(*p && *p == *q) { ++p; ++q; }`, on a memory of
characters: the final `q` and the addresses read, in order.  `*q` is read only when
`*p` is not NUL.  `none`: the fuel ran out. -/
def find_scan (mem : Nat → Char) : Nat → Nat → Nat → Option (Nat × List Nat)
  | 0, _, _ => none
  | fuel + 1, p, q =>
    if mem p = NUL then some (q, [p])
    else if mem p = mem q then
      (find_scan mem fuel (p + 1) (q + 1)).map fun r => (r.1, p :: q :: r.2)
    else some (q, [p, q])

/-- The function `find(str, token)` on a memory of characters: the returned pointer
(`none` for `NULL`) and the addresses read, in order.  The outer `none`: the fuel
ran out. -/
def find_ptr (mem : Nat → Char) : Nat → Nat → Nat → Option (Option Nat × List Nat)
  | 0, _, _ => none
  | fuel + 1, str, token =>
    if mem str = NUL then some (none, [str])
    else
      match find_scan mem (fuel + 1) str token with
      | none => none
      | some (q, rd) =>
        if mem q = NUL then some (some str, str :: (rd ++ [q]))
        else (find_ptr mem fuel (str + 1) token).map fun r => (r.1, str :: (rd ++ [q]) ++ r.2)

/-- The board selection at the head of `kernel_main`: the default is `RPI`, and each
successful `find` overwrites the previous choice. -/
def arch_info (cmdline : List Char) : Arch :=
  let a := Arch.RPI
  let a := if (find cmdline "bcm2708.disk_led_gpio=47".toList).isSome then Arch.RPIplus else a
  let a := if (find cmdline "bcm2709.disk_led_gpio=47".toList).isSome then Arch.RPI2 else a
  a

/-! ## External collaborators and the trace of a run -/

/-- An argument of a `kprintf` call. -/
inductive Arg where
  | num (n : Nat)
  | str (s : String)
  deriving DecidableEq, Repr

/-- One interaction of `kernel_main` with its environment. -/
inductive Event where
  | uart_init
  | kprintf (fmt : String) (args : List Arg)
  | print_all (atags : Nat)
  | puts (s : String)
  | getc (b : Byte)
  | uncompress (pDest destLen pSource sourceLen : Nat)
  | crc32 (crc ptr len : Nat)
  | call (addr r0 r1 atags : Nat)
  deriving DecidableEq, Repr

/-- The collaborators of `kernel_main` that `main.cc` only calls:
* `cmdline`: the string `atags->find<Cmdline>()->cmdline`;
* `uncompress mem pDest destLen pSource sourceLen`: the decoder, returning its
  status, the value it leaves in `*pDest_len` and the memory it leaves;
* `crc32 crc mem ptr len`: the checksum;
* `fn mem r0 r1 atags`: whether the image entered at `0x8000` returns. -/
structure Env where
  cmdline : List Char
  uncompress : Mem → Nat → Nat → Nat → Nat → Int × Nat × Mem
  crc32 : Nat → Mem → Nat → Nat → Nat
  fn : Mem → Nat → Nat → Nat → Bool

/-- How a run of `kernel_main` on a finite input ends. -/
inductive Outcome where
  | blocked
  | noreturn
  | returned
  deriving DecidableEq, Repr

/-- A run: its trace, how it ends, and the memory left by the loader (at the
handoff when the handoff is reached). -/
structure Run where
  trace : List Event
  outcome : Outcome
  mem : Mem

/-- The run `r` preceded by the events `t`. -/
def Run.after (t : List Event) (r : Run) : Run :=
  { r with trace := t ++ r.trace }

/-! ## `kernel_main` -/

/-- The size assembly
`size = getc(); size |= getc() << 8; size |= getc() << 16; size |= getc() << 24;`
on a `uint32_t`. -/
def readSize (b0 b1 b2 b3 : Byte) : Nat :=
  let size := b0.val
  let size := (size ||| (b1.val <<< 8) % 2 ^ 32) % 2 ^ 32
  let size := (size ||| (b2.val <<< 16) % 2 ^ 32) % 2 ^ 32
  let size := (size ||| (b3.val <<< 24) % 2 ^ 32) % 2 ^ 32
  size

/-- The block between the label `again:` and the request: banner, register values,
boot-argument dump and detected model, all sent to the logging sink. -/
def announce (env : Env) (r0 r1 atags : Nat) : List Event :=
  [ .kprintf hello [],
    .kprintf "######################################################################\n" [],
    .kprintf "R0 = %#010lx, R1 = %#010lx, ATAGs @ %p\n" [.num r0, .num r1, .num atags],
    .print_all atags,
    .kprintf "Detected '%s'\n" [.str (arch_infos (arch_info env.cmdline)).model],
    .kprintf "######################################################################\n" [] ]

/-- The request `UART::puts("\x03\x03\x03")`. -/
def breaks : String := "\x03\x03\x03"

/-- The receive loop `for (int i = 0; i < size; ++i) compressed[i] = UART::getc();`
with `compressed = (uint8_t*)(0x8000+MAX_SIZE)`.  The counter is held as its 32-bit
pattern: the comparison with the unsigned `size` and the address computation both
see it that way, and an increment past `INT_MAX` wraps in two's complement.  The
result is the events, the memory, and whether the loop completed (`false`: the
channel ran dry first). -/
def receive (size : Nat) : List Byte → Nat → Mem → List Event × Mem × Bool
  | [], i, mem => if i < size then ([], mem, false) else ([], mem, true)
  | b :: rest, i, mem =>
    if i < size then
      let r := receive size rest ((i + 1) % 2 ^ 32) (mem.write ((0x8000 + MAX_SIZE + i) % 2 ^ 32) b)
      (.getc b :: r.1, r.2.1, r.2.2)
    else ([], mem, true)

/-- The tail of `kernel_main` once the payload is staged: decompression, checksum,
the call of the image at `0x8000`, and the halt banner when that call returns.  The
busy-wait loop before the halt banner touches neither the channel nor memory. -/
def boot (env : Env) (r0 r1 atags size : Nat) (mem : Mem) : Run :=
  let r := env.uncompress mem 0x8000 MAX_SIZE (0x8000 + MAX_SIZE) size
  let cmp_status := r.1
  let uncompressedSize := r.2.1
  let mem1 := r.2.2
  let crc := env.crc32 0 mem1 0x8000 uncompressedSize
  let t : List Event :=
    [ .kprintf "decompressing...\r\n" [],
      .uncompress 0x8000 MAX_SIZE (0x8000 + MAX_SIZE) size,
      .puts (if cmp_status = Z_OK then "decompressed OK...\r\n" else "decompressed failed...\r\n"),
      .crc32 0 0x8000 uncompressedSize,
      .kprintf "CRC: 0x%08lx\n" [.num crc],
      .puts "booting...",
      .call 0x8000 r0 r1 atags ]
  if env.fn mem1 r0 r1 atags then
    ⟨t ++ [.puts halting], .returned, mem1⟩
  else
    ⟨t, .noreturn, mem1⟩

/-- The body of `kernel_main` from the label `again:` on. -/
def again (env : Env) (r0 r1 atags : Nat) : List Byte → Mem → Run
  | b0 :: b1 :: b2 :: b3 :: rest, mem =>
    let size := readSize b0 b1 b2 b3
    let pre := announce env r0 r1 atags ++ [.puts breaks, .getc b0, .getc b1, .getc b2, .getc b3]
    if (0x8000 + size) % 2 ^ 32 > LOADER_ADDR then
      (again env r0 r1 atags rest mem).after (pre ++ [.puts "SE"])
    else
      let r := receive size rest 0 mem
      if r.2.2 then
        (boot env r0 r1 atags size r.2.1).after (pre ++ [.puts "OK"] ++ r.1)
      else
        ⟨pre ++ [.puts "OK"] ++ r.1, .blocked, r.2.1⟩
  | inp, mem =>
    ⟨announce env r0 r1 atags ++ .puts breaks :: inp.map .getc, .blocked, mem⟩

/-- The function `kernel_main(r0, r1, atags)` run on the channel input `input` from
the memory `mem`. -/
def kernel_main (env : Env) (r0 r1 atags : Nat) (input : List Byte) (mem : Mem) : Run :=
  (again env r0 r1 atags input mem).after [.uart_init]

/-- A collaborator set for concrete runs: empty command line, a decoder that fails
without touching memory or the length, a zero checksum, an image that returns. -/
def env0 : Env :=
  { cmdline := [],
    uncompress := fun mem _ destLen _ _ => (-3, destLen, mem),
    crc32 := fun _ _ _ _ => 0,
    fn := fun _ _ _ _ => true }

/-- The memory holding zero everywhere. -/
def mem0 : Mem := fun _ => 0

/-! ## Vocabulary of the statements -/

/-- The four octets a host sends to declare the size `s`, least significant first. -/
def le32 (s : Nat) : List Byte :=
  [ ⟨s % 256, Nat.mod_lt _ (by decide)⟩,
    ⟨s / 2 ^ 8 % 256, Nat.mod_lt _ (by decide)⟩,
    ⟨s / 2 ^ 16 % 256, Nat.mod_lt _ (by decide)⟩,
    ⟨s / 2 ^ 24 % 256, Nat.mod_lt _ (by decide)⟩ ]

/-- The octets of a sequence of size declarations sent back to back. -/
def declare : List Nat → List Byte
  | [] => []
  | s :: ss => le32 s ++ declare ss

/-- The events of one negotiation attempt in which the host declares `s` and the
loader answers `code`. -/
def negotiation (env : Env) (r0 r1 atags s : Nat) (code : String) : List Event :=
  announce env r0 r1 atags ++ [.puts breaks] ++ (le32 s).map .getc ++ [.puts code]

/-- The events of consecutive attempts that are all answered `"SE"`. -/
def rejections (env : Env) (r0 r1 atags : Nat) : List Nat → List Event
  | [] => []
  | s :: ss => negotiation env r0 r1 atags s "SE" ++ rejections env r0 r1 atags ss

/-- The memory after the octets `p` have been stored in the staging buffer at the
indices `i`, `i + 1`, ... -/
def stage (mem : Mem) : Nat → List Byte → Mem
  | _, [] => mem
  | i, b :: p => stage (mem.write ((0x8000 + MAX_SIZE + i) % 2 ^ 32) b) (i + 1) p

/-- A decoder that copies its input to its output: `*pDest_len` becomes the input
length and the status is `Z_OK`. -/
def copyDecoder (mem : Mem) (pDest _destLen pSource sourceLen : Nat) : Int × Nat × Mem :=
  (Z_OK, sourceLen,
    fun a => if pDest ≤ a ∧ a < pDest + sourceLen then mem (pSource + (a - pDest)) else mem a)

/-- The collaborators of `env0` with the copying decoder and an image that does
not return. -/
def env1 : Env :=
  { cmdline := "bcm2708.disk_led_gpio=47".toList,
    uncompress := copyDecoder,
    crc32 := fun _ _ _ _ => 0,
    fn := fun _ _ _ _ => false }

/-- Whether an event is a read of the channel. -/
def Event.isGetc : Event → Bool
  | .getc _ => true
  | _ => false

/-- Whether an event is a call of the loaded image. -/
def Event.isCall : Event → Bool
  | .call _ _ _ _ => true
  | _ => false

/-- Whether an event is a write to the channel with `UART::puts`. -/
def Event.isPuts : Event → Bool
  | .puts _ => true
  | _ => false

/-- The string `t` occurs in `s` as a contiguous run of characters. -/
def occurs (t s : List Char) : Prop :=
  ∃ l r : List Char, s = l ++ t ++ r

/-- The memory `mem` holds at address `a` the C string with characters `s`: the
characters, none of them NUL, followed by the terminating NUL. -/
def CString (mem : Nat → Char) (a : Nat) (s : List Char) : Prop :=
  (∀ (i : Nat) (h : i < s.length), mem (a + i) = s[i]) ∧ (∀ c ∈ s, c ≠ NUL) ∧
    mem (a + s.length) = NUL

/-- A memory of characters holding `"xab"` at address 0 and `"ab"` at address 8. -/
def cmem0 : Nat → Char := fun a =>
  if a = 0 then 'x' else if a = 1 then 'a' else if a = 2 then 'b'
  else if a = 8 then 'a' else if a = 9 then 'b' else NUL

/-- A call of the allocator: `malloc(size)` or `free(ptr)`. -/
inductive HeapCall where
  | malloc (size : Nat)
  | free (ptr : Nat)
  deriving DecidableEq, Repr

/-- A sequence of allocator calls run from the value `base` of the static pointer:
the pointers returned by the `malloc` calls, in order, and the final `base`. -/
def heap_run : Nat → List HeapCall → List Nat × Nat
  | base, [] => ([], base)
  | base, .malloc n :: cs => ((malloc base n).1 :: (heap_run (malloc base n).2 cs).1,
      (heap_run (malloc base n).2 cs).2)
  | base, .free ptr :: cs => heap_run (free base ptr) cs

/-- The sizes of the `malloc` calls of a sequence, in order. -/
def malloc_sizes : List HeapCall → List Nat
  | [] => []
  | .malloc n :: cs => n :: malloc_sizes cs
  | .free _ :: cs => malloc_sizes cs

/-- The addresses `b`, `b + n1`, `b + n1 + n2`, ... of blocks of sizes `n1`, `n2`,
... laid out back to back from `b`. -/
def bump : Nat → List Nat → List Nat
  | _, [] => []
  | b, n :: ns => b :: bump (b + n) ns

/-! ## Size assembly -/

/-- An OR with a shifted value is a sum when the low part fits below the shift. -/
theorem lor_shiftLeft_eq_add (a b k : Nat) (h : a < 2 ^ k) : a ||| (b <<< k) = a + 2 ^ k * b := by
  rw [Nat.shiftLeft_eq, Nat.mul_comm b, Nat.lor_comm, ← Nat.mul_add_lt_is_or h, Nat.add_comm]

/-- The assembled size as a sum of weighted octets. -/
theorem readSize_eq (b0 b1 b2 b3 : Byte) :
    readSize b0 b1 b2 b3 = b0.val + 2 ^ 8 * b1.val + 2 ^ 16 * b2.val + 2 ^ 24 * b3.val := by
  have h0 := b0.isLt
  have h1 := b1.isLt
  have h2 := b2.isLt
  have h3 := b3.isLt
  have e1 : (b1.val <<< 8) % 2 ^ 32 = b1.val <<< 8 := by
    rw [Nat.shiftLeft_eq]; omega
  have e2 : (b2.val <<< 16) % 2 ^ 32 = b2.val <<< 16 := by
    rw [Nat.shiftLeft_eq]; omega
  have e3 : (b3.val <<< 24) % 2 ^ 32 = b3.val <<< 24 := by
    rw [Nat.shiftLeft_eq]; omega
  unfold readSize
  simp only [e1, e2, e3]
  rw [lor_shiftLeft_eq_add b0.val b1.val 8 (by omega)]
  rw [Nat.mod_eq_of_lt (by omega : b0.val + 2 ^ 8 * b1.val < 2 ^ 32)]
  rw [lor_shiftLeft_eq_add _ b2.val 16 (by omega)]
  rw [Nat.mod_eq_of_lt (by omega : b0.val + 2 ^ 8 * b1.val + 2 ^ 16 * b2.val < 2 ^ 32)]
  rw [lor_shiftLeft_eq_add _ b3.val 24 (by omega)]
  rw [Nat.mod_eq_of_lt (by omega)]

/-- The assembled size fits in 32 bits. -/
theorem readSize_lt (b0 b1 b2 b3 : Byte) : readSize b0 b1 b2 b3 < 2 ^ 32 := by
  have h0 := b0.isLt
  have h1 := b1.isLt
  have h2 := b2.isLt
  have h3 := b3.isLt
  rw [readSize_eq]
  omega

/-- Reading back the four octets of `le32 s` yields `s` modulo `2^32`. -/
theorem le32_eq (s : Nat) : ∃ b0 b1 b2 b3 : Byte,
    le32 s = [b0, b1, b2, b3] ∧ readSize b0 b1 b2 b3 = s % 2 ^ 32 := by
  refine ⟨_, _, _, _, rfl, ?_⟩
  rw [readSize_eq]
  simp only []
  omega

/-- The four octets of an assembled size are the octets it was assembled from. -/
theorem le32_readSize (b0 b1 b2 b3 : Byte) : le32 (readSize b0 b1 b2 b3) = [b0, b1, b2, b3] := by
  have h0 := b0.isLt
  have h1 := b1.isLt
  have h2 := b2.isLt
  have h3 := b3.isLt
  rw [readSize_eq]
  simp only [le32, List.cons.injEq, and_true]
  refine ⟨?_, ?_, ?_, ?_⟩ <;> apply Fin.ext <;> simp only [] <;> omega

/-! ## The receive loop -/

/-- With the whole payload available the receive loop reads exactly the missing octets. -/
theorem receive_all (size : Nat) (hsize : size < 2 ^ 32) (p extra : List Byte) :
    ∀ (i : Nat) (mem : Mem), i + p.length = size →
      receive size (p ++ extra) i mem = (p.map .getc, stage mem i p, true) := by
  induction p with
  | nil =>
    intro i mem h
    simp only [List.length_nil, Nat.add_zero] at h
    cases extra <;> simp [receive, stage, h]
  | cons b p ih =>
    intro i mem h
    simp only [List.length_cons] at h
    have hi : i < size := by omega
    have hw : (i + 1) % 2 ^ 32 = i + 1 := Nat.mod_eq_of_lt (by omega)
    have e := ih (i + 1) (mem.write ((0x8000 + MAX_SIZE + i) % 2 ^ 32) b) (by omega)
    simp only [List.cons_append, receive, hi, if_true, hw, List.map_cons, stage, List.append_eq]
    rw [e]

/-- With too few octets available the receive loop reads them all and does not complete. -/
theorem receive_short (size : Nat) (hsize : size < 2 ^ 32) (p : List Byte) :
    ∀ (i : Nat) (mem : Mem), i + p.length < size →
      receive size p i mem = (p.map .getc, stage mem i p, false) := by
  induction p with
  | nil =>
    intro i mem h
    simp only [List.length_nil, Nat.add_zero] at h
    simp [receive, stage, h]
  | cons b p ih =>
    intro i mem h
    simp only [List.length_cons] at h
    have hi : i < size := by omega
    have hw : (i + 1) % 2 ^ 32 = i + 1 := Nat.mod_eq_of_lt (by omega)
    simp only [receive, hi, if_true, hw, List.map_cons, stage]
    rw [ih (i + 1) _ (by omega)]

/-- Staging leaves every address outside the written range untouched. -/
theorem stage_frame (p : List Byte) : ∀ (mem : Mem) (i a : Nat),
    (∀ j, j < p.length → a ≠ (0x8000 + MAX_SIZE + (i + j)) % 2 ^ 32) →
      stage mem i p a = mem a := by
  induction p with
  | nil => intro mem i a _; rfl
  | cons b p ih =>
    intro mem i a h
    simp only [stage]
    rw [ih]
    · have h0 := h 0 (by simp)
      simp only [Nat.add_zero] at h0
      unfold Mem.write
      rw [if_neg h0]
    · intro j hj
      have := h (j + 1) (by simp only [List.length_cons]; omega)
      rwa [show i + 1 + j = i + (j + 1) by omega]

/-- Staging stores octet `j` of the payload at index `i + j` of the staging buffer. -/
theorem stage_read (p : List Byte) : ∀ (mem : Mem) (i j : Nat) (hj : j < p.length),
    i + p.length ≤ 2 ^ 32 →
      stage mem i p ((0x8000 + MAX_SIZE + (i + j)) % 2 ^ 32) = p[j] := by
  induction p with
  | nil => intro mem i j hj; simp at hj
  | cons b p ih =>
    intro mem i j hj hlen
    simp only [List.length_cons] at hj hlen
    cases j with
    | zero =>
      simp only [stage, Nat.add_zero, List.getElem_cons_zero]
      rw [stage_frame]
      · simp [Mem.write]
      · intro j hj2
        simp only [MAX_SIZE]
        omega
    | succ j =>
      simp only [stage, List.getElem_cons_succ]
      rw [show i + (j + 1) = i + 1 + j by omega]
      exact ih _ (i + 1) j (by omega) (by omega)

/-! ## Unfolding `again` -/

/-- Prepending events twice prepends their concatenation. -/
theorem Run.after_after (t u : List Event) (r : Run) : (r.after u).after t = r.after (t ++ u) := by
  simp [Run.after]

/-- One pass through the body of `kernel_main` when four octets are available. -/
theorem again_step (env : Env) (r0 r1 atags : Nat) (b0 b1 b2 b3 : Byte) (rest : List Byte)
    (mem : Mem) :
    again env r0 r1 atags (b0 :: b1 :: b2 :: b3 :: rest) mem =
      if (0x8000 + readSize b0 b1 b2 b3) % 2 ^ 32 > LOADER_ADDR then
        (again env r0 r1 atags rest mem).after
          (announce env r0 r1 atags ++ [.puts breaks, .getc b0, .getc b1, .getc b2, .getc b3]
            ++ [.puts "SE"])
      else if (receive (readSize b0 b1 b2 b3) rest 0 mem).2.2 then
        (boot env r0 r1 atags (readSize b0 b1 b2 b3)
            (receive (readSize b0 b1 b2 b3) rest 0 mem).2.1).after
          (announce env r0 r1 atags ++ [.puts breaks, .getc b0, .getc b1, .getc b2, .getc b3]
            ++ [.puts "OK"] ++ (receive (readSize b0 b1 b2 b3) rest 0 mem).1)
      else
        ⟨announce env r0 r1 atags ++ [.puts breaks, .getc b0, .getc b1, .getc b2, .getc b3]
            ++ [.puts "OK"] ++ (receive (readSize b0 b1 b2 b3) rest 0 mem).1,
          .blocked, (receive (readSize b0 b1 b2 b3) rest 0 mem).2.1⟩ := by
  rw [again]

/-- A rejected declaration costs one attempt and leaves the rest of the input to the next. -/
theorem again_reject (env : Env) (r0 r1 atags s : Nat) (rest : List Byte) (mem : Mem)
    (hs : s < 2 ^ 32) (hbig : (0x8000 + s) % 2 ^ 32 > LOADER_ADDR) :
    again env r0 r1 atags (le32 s ++ rest) mem =
      (again env r0 r1 atags rest mem).after (negotiation env r0 r1 atags s "SE") := by
  obtain ⟨b0, b1, b2, b3, hle, hrd⟩ := le32_eq s
  rw [Nat.mod_eq_of_lt hs] at hrd
  rw [negotiation, hle]
  simp only [List.cons_append, List.nil_append]
  rw [again_step, hrd, if_pos hbig]
  simp

/-- Any number of rejected declarations in a row. -/
theorem again_rejects (env : Env) (r0 r1 atags : Nat) (ss : List Nat) (rest : List Byte)
    (mem : Mem) (hss : ∀ x ∈ ss, x < 2 ^ 32 ∧ (0x8000 + x) % 2 ^ 32 > LOADER_ADDR) :
    again env r0 r1 atags (declare ss ++ rest) mem =
      (again env r0 r1 atags rest mem).after (rejections env r0 r1 atags ss) := by
  induction ss with
  | nil => simp [declare, rejections, Run.after]
  | cons s ss ih =>
    have h1 := hss s (by simp)
    simp only [declare, rejections, List.append_assoc]
    rw [again_reject env r0 r1 atags s _ mem h1.1 h1.2, ih (fun x hx => hss x (by simp [hx])),
      Run.after_after]

/-- An accepted declaration followed by its whole payload leads to the boot stage. -/
theorem again_accept (env : Env) (r0 r1 atags s : Nat) (p extra : List Byte) (mem : Mem)
    (hs : s < 2 ^ 32) (hok : (0x8000 + s) % 2 ^ 32 ≤ LOADER_ADDR) (hp : p.length = s) :
    again env r0 r1 atags (le32 s ++ (p ++ extra)) mem =
      (boot env r0 r1 atags s (stage mem 0 p)).after
        (negotiation env r0 r1 atags s "OK" ++ p.map .getc) := by
  obtain ⟨b0, b1, b2, b3, hle, hrd⟩ := le32_eq s
  rw [Nat.mod_eq_of_lt hs] at hrd
  rw [negotiation, hle]
  simp only [List.cons_append, List.nil_append]
  rw [again_step, hrd, if_neg (by omega), receive_all s hs p extra 0 mem (by omega)]
  simp

/-- An accepted declaration followed by too short a payload blocks in the receive loop. -/
theorem again_stall (env : Env) (r0 r1 atags s : Nat) (p : List Byte) (mem : Mem)
    (hs : s < 2 ^ 32) (hok : (0x8000 + s) % 2 ^ 32 ≤ LOADER_ADDR) (hp : p.length < s) :
    again env r0 r1 atags (le32 s ++ p) mem =
      ⟨negotiation env r0 r1 atags s "OK" ++ p.map .getc, .blocked, stage mem 0 p⟩ := by
  obtain ⟨b0, b1, b2, b3, hle, hrd⟩ := le32_eq s
  rw [Nat.mod_eq_of_lt hs] at hrd
  rw [negotiation, hle]
  simp only [List.cons_append, List.nil_append]
  rw [again_step, hrd, if_neg (by omega), receive_short s hs p 0 mem (by omega)]
  simp

/-! ## Whole runs -/

/-- The events of an attempt up to and including its response code. -/
theorem again_head (env : Env) (r0 r1 atags : Nat) (b0 b1 b2 b3 : Byte) (rest : List Byte)
    (mem : Mem) :
    ∃ tail, (again env r0 r1 atags (b0 :: b1 :: b2 :: b3 :: rest) mem).trace =
      announce env r0 r1 atags ++
        [.puts breaks, .getc b0, .getc b1, .getc b2, .getc b3,
          .puts (if (0x8000 + readSize b0 b1 b2 b3) % 2 ^ 32 > LOADER_ADDR then "SE" else "OK")]
        ++ tail := by
  rw [again_step]
  by_cases h : (0x8000 + readSize b0 b1 b2 b3) % 2 ^ 32 > LOADER_ADDR
  · rw [if_pos h, if_pos h]
    exact ⟨(again env r0 r1 atags rest mem).trace, by simp [Run.after]⟩
  · rw [if_neg h, if_neg h]
    by_cases hr : (receive (readSize b0 b1 b2 b3) rest 0 mem).2.2 = true
    · rw [if_pos hr]
      exact ⟨_, by simp only [Run.after, List.append_assoc, List.cons_append, List.nil_append]; rfl⟩
    · rw [if_neg hr]
      exact ⟨_, by simp only [List.append_assoc, List.cons_append, List.nil_append]; rfl⟩

/-- A whole run that starts with rejected declarations. -/
theorem kernel_main_rejects (env : Env) (r0 r1 atags : Nat) (ss : List Nat) (rest : List Byte)
    (mem : Mem) (hss : ∀ x ∈ ss, x < 2 ^ 32 ∧ (0x8000 + x) % 2 ^ 32 > LOADER_ADDR) :
    kernel_main env r0 r1 atags (declare ss ++ rest) mem =
      (again env r0 r1 atags rest mem).after ([.uart_init] ++ rejections env r0 r1 atags ss) := by
  rw [kernel_main, again_rejects env r0 r1 atags ss rest mem hss, Run.after_after]

/-! ## Counting events -/

/-- Reads are not writes of the channel. -/
theorem count_puts_getc (s : String) (p : List Byte) :
    (p.map Event.getc).count (.puts s) = 0 := by
  induction p with
  | nil => rfl
  | cons b p ih => simp [List.count_cons, ih]

/-- Reads are not log lines. -/
theorem count_kprintf_getc (f : String) (a : List Arg) (p : List Byte) :
    (p.map Event.getc).count (.kprintf f a) = 0 := by
  induction p with
  | nil => rfl
  | cons b p ih => simp [List.count_cons, ih]

/-- Every read event is a read. -/
theorem countP_isGetc_getc (p : List Byte) :
    (p.map Event.getc).countP Event.isGetc = p.length := by
  induction p with
  | nil => rfl
  | cons b p ih => simp [List.countP_cons, ih, Event.isGetc]

/-- Reads are not calls of the image. -/
theorem countP_isCall_getc (p : List Byte) :
    (p.map Event.getc).countP Event.isCall = 0 := by
  induction p with
  | nil => rfl
  | cons b p ih => simp [List.countP_cons, ih, Event.isCall]

/-- The events of the boot stage. -/
theorem boot_trace (env : Env) (r0 r1 atags size : Nat) (mem : Mem) :
    (boot env r0 r1 atags size mem).trace =
      [ .kprintf "decompressing...\r\n" [],
        .uncompress 0x8000 MAX_SIZE (0x8000 + MAX_SIZE) size,
        .puts (if (env.uncompress mem 0x8000 MAX_SIZE (0x8000 + MAX_SIZE) size).1 = Z_OK
          then "decompressed OK...\r\n" else "decompressed failed...\r\n"),
        .crc32 0 0x8000 (env.uncompress mem 0x8000 MAX_SIZE (0x8000 + MAX_SIZE) size).2.1,
        .kprintf "CRC: 0x%08lx\n"
          [.num (env.crc32 0 (env.uncompress mem 0x8000 MAX_SIZE (0x8000 + MAX_SIZE) size).2.2
            0x8000 (env.uncompress mem 0x8000 MAX_SIZE (0x8000 + MAX_SIZE) size).2.1)],
        .puts "booting...",
        .call 0x8000 r0 r1 atags ] ++
      (if env.fn (env.uncompress mem 0x8000 MAX_SIZE (0x8000 + MAX_SIZE) size).2.2 r0 r1 atags
        then [.puts halting] else []) := by
  unfold boot
  by_cases h : env.fn (env.uncompress mem 0x8000 MAX_SIZE (0x8000 + MAX_SIZE) size).2.2 r0 r1 atags
      = true
  · simp [h]
  · simp [h]

/-- The memory left by the boot stage is the memory left by the decoder. -/
theorem boot_mem (env : Env) (r0 r1 atags size : Nat) (mem : Mem) :
    (boot env r0 r1 atags size mem).mem =
      (env.uncompress mem 0x8000 MAX_SIZE (0x8000 + MAX_SIZE) size).2.2 := by
  unfold boot
  by_cases h : env.fn (env.uncompress mem 0x8000 MAX_SIZE (0x8000 + MAX_SIZE) size).2.2 r0 r1 atags
      = true
  · simp [h]
  · simp [h]

/-- The boot stage ends as the image decides. -/
theorem boot_outcome (env : Env) (r0 r1 atags size : Nat) (mem : Mem) :
    (boot env r0 r1 atags size mem).outcome =
      if env.fn (env.uncompress mem 0x8000 MAX_SIZE (0x8000 + MAX_SIZE) size).2.2 r0 r1 atags
        then .returned else .noreturn := by
  unfold boot
  by_cases h : env.fn (env.uncompress mem 0x8000 MAX_SIZE (0x8000 + MAX_SIZE) size).2.2 r0 r1 atags
      = true
  · simp [h]
  · simp [h]

/-- What the boot stage does not emit, and its single call of the image. -/
theorem boot_counts (env : Env) (r0 r1 atags size : Nat) (mem : Mem) :
    (boot env r0 r1 atags size mem).trace.count (.puts "OK") = 0 ∧
    (boot env r0 r1 atags size mem).trace.count (.puts "SE") = 0 ∧
    (boot env r0 r1 atags size mem).trace.count (.puts breaks) = 0 ∧
    (boot env r0 r1 atags size mem).trace.count (.kprintf hello []) = 0 ∧
    (boot env r0 r1 atags size mem).trace.countP Event.isGetc = 0 ∧
    (boot env r0 r1 atags size mem).trace.countP Event.isCall = 1 := by
  rw [boot_trace]
  by_cases h : env.fn (env.uncompress mem 0x8000 MAX_SIZE (0x8000 + MAX_SIZE) size).2.2 r0 r1 atags
      = true <;>
  by_cases h2 : (env.uncompress mem 0x8000 MAX_SIZE (0x8000 + MAX_SIZE) size).1 = Z_OK <;>
  simp [h, h2, List.count_cons, List.countP_cons, Event.isGetc, Event.isCall, breaks, hello, halting]

/-- The banner block holds one banner line and nothing for the channel. -/
theorem announce_counts (env : Env) (r0 r1 atags : Nat) :
    (announce env r0 r1 atags).count (.puts "OK") = 0 ∧
    (announce env r0 r1 atags).count (.puts "SE") = 0 ∧
    (announce env r0 r1 atags).count (.puts breaks) = 0 ∧
    (announce env r0 r1 atags).count (.kprintf hello []) = 1 ∧
    (announce env r0 r1 atags).countP Event.isGetc = 0 ∧
    (announce env r0 r1 atags).countP Event.isCall = 0 := by
  simp [announce, List.count_cons, List.countP_cons, Event.isGetc, Event.isCall, breaks, hello]

/-- Reads are not initialisations of the channel. -/
theorem count_uart_init_getc (p : List Byte) :
    (p.map Event.getc).count .uart_init = 0 := by
  induction p with
  | nil => rfl
  | cons b p ih => simp [List.count_cons, ih]

/-- Each rejected attempt holds one `"SE"` and one banner line. -/
theorem rejections_counts (env : Env) (r0 r1 atags : Nat) (ss : List Nat) :
    (rejections env r0 r1 atags ss).count (.puts "SE") = ss.length ∧
    (rejections env r0 r1 atags ss).count (.puts "OK") = 0 ∧
    (rejections env r0 r1 atags ss).count (.kprintf hello []) = ss.length ∧
    (rejections env r0 r1 atags ss).count .uart_init = 0 ∧
    (rejections env r0 r1 atags ss).countP Event.isCall = 0 := by
  have ha := announce_counts env r0 r1 atags
  induction ss with
  | nil => simp [rejections]
  | cons s ss ih =>
    obtain ⟨i1, i2, i3, i4, i5⟩ := ih
    simp only [rejections, negotiation, List.count_append, List.countP_append, count_puts_getc,
      count_kprintf_getc, count_uart_init_getc, countP_isCall_getc, i1, i2, i3, i4, i5, ha.1,
      ha.2.1, ha.2.2.2.1, ha.2.2.2.2.2, List.length_cons]
    simp [List.count_cons, List.countP_cons, Event.isCall, breaks, hello, announce]
    omega

/-- Every pass through the body starts with the banner block and the break sequence. -/
theorem again_starts (env : Env) (r0 r1 atags : Nat) (inp : List Byte) (mem : Mem) :
    ∃ tail, (again env r0 r1 atags inp mem).trace =
      announce env r0 r1 atags ++ .puts breaks :: tail := by
  match inp with
  | [] => exact ⟨_, by simp only [again]; rfl⟩
  | [_] => exact ⟨_, by simp only [again]; rfl⟩
  | [_, _] => exact ⟨_, by simp only [again]; rfl⟩
  | [_, _, _] => exact ⟨_, by simp only [again]; rfl⟩
  | b0 :: b1 :: b2 :: b3 :: rest =>
    obtain ⟨tail, ht⟩ := again_head env r0 r1 atags b0 b1 b2 b3 rest mem
    exact ⟨_, by rw [ht]; simp only [List.append_assoc, List.cons_append, List.nil_append]; rfl⟩

/-- Declarations sent back to back concatenate. -/
theorem declare_append (ss1 ss2 : List Nat) : declare (ss1 ++ ss2) = declare ss1 ++ declare ss2 := by
  induction ss1 with
  | nil => rfl
  | cons s ss ih => simp [declare, ih]

/-- After staging from index 0 the staging buffer holds the payload in order. -/
theorem stage_holds (mem : Mem) (p : List Byte) (hlen : p.length < 2 ^ 32) :
    ∀ (j : Nat) (h : j < p.length), stage mem 0 p ((0x8000 + MAX_SIZE + j) % 2 ^ 32) = p[j] := by
  intro j h
  have := stage_read p mem 0 j h (by omega)
  rwa [Nat.zero_add] at this

/-- A whole run: rejected declarations, an accepted one, its payload. -/
theorem kernel_main_accept (env : Env) (r0 r1 atags : Nat) (ss : List Nat) (s : Nat)
    (p extra : List Byte) (mem : Mem)
    (hss : ∀ x ∈ ss, x < 2 ^ 32 ∧ (0x8000 + x) % 2 ^ 32 > LOADER_ADDR)
    (hs : s < 2 ^ 32) (hok : (0x8000 + s) % 2 ^ 32 ≤ LOADER_ADDR) (hp : p.length = s) :
    kernel_main env r0 r1 atags (declare ss ++ (le32 s ++ (p ++ extra))) mem =
      (boot env r0 r1 atags s (stage mem 0 p)).after
        ([.uart_init] ++ rejections env r0 r1 atags ss ++
          (negotiation env r0 r1 atags s "OK" ++ p.map .getc)) := by
  rw [kernel_main_rejects env r0 r1 atags ss _ mem hss,
    again_accept env r0 r1 atags s p extra mem hs hok hp, Run.after_after]

/-- The copying decoder returns what the staging buffer holds. -/
theorem copyDecoder_inverts (m : Mem) (y : List Byte) (hy : y.length ≤ MAX_SIZE)
    (hm : ∀ (j : Nat) (h : j < y.length), m ((0x8000 + MAX_SIZE + j) % 2 ^ 32) = y[j]) :
    (copyDecoder m 0x8000 MAX_SIZE (0x8000 + MAX_SIZE) y.length).1 = Z_OK ∧
    ∀ (j : Nat) (h : j < y.length),
      (copyDecoder m 0x8000 MAX_SIZE (0x8000 + MAX_SIZE) y.length).2.2 (0x8000 + j) = y[j] := by
  refine ⟨rfl, ?_⟩
  intro j h
  have e := hm j h
  simp only [MAX_SIZE] at hy e
  have hmod : (0x8000 + 0x200000 + j) % 2 ^ 32 = 0x8000 + 0x200000 + j := by omega
  rw [hmod] at e
  have hc : 0x8000 ≤ 0x8000 + j ∧ 0x8000 + j < 0x8000 + y.length := by omega
  simp only [copyDecoder, MAX_SIZE, hc, and_self, if_true, Nat.add_sub_cancel_left]
  exact e

/-- The boot stage does not initialise the channel. -/
theorem boot_count_uart_init (env : Env) (r0 r1 atags size : Nat) (mem : Mem) :
    (boot env r0 r1 atags size mem).trace.count .uart_init = 0 := by
  rw [boot_trace]
  by_cases h : env.fn (env.uncompress mem 0x8000 MAX_SIZE (0x8000 + MAX_SIZE) size).2.2 r0 r1 atags
      = true <;>
  simp [h, List.count_cons]

/-- The receive loop only reads. -/
theorem receive_events (size : Nat) (inp : List Byte) :
    ∀ (i : Nat) (mem : Mem) (e : Event), e ∈ (receive size inp i mem).1 → e.isGetc = true := by
  induction inp with
  | nil =>
    intro i mem e he
    by_cases h : i < size <;> simp [receive, h] at he
  | cons b rest ih =>
    intro i mem e he
    by_cases h : i < size
    · simp only [receive, h, if_true, List.mem_cons] at he
      rcases he with he | he
      · rw [he]; rfl
      · exact ih _ _ e he
    · simp [receive, h] at he

/-- The banner block neither reads nor calls the image. -/
theorem announce_events (env : Env) (r0 r1 atags : Nat) (e : Event)
    (he : e ∈ announce env r0 r1 atags) : e.isCall = false ∧ e.isGetc = false := by
  simp only [announce, List.mem_cons, List.mem_singleton, List.not_mem_nil, or_false] at he
  rcases he with he | he | he | he | he | he <;> rw [he] <;> exact ⟨rfl, rfl⟩

/-- The only call in the boot stage is the handoff. -/
theorem boot_events (env : Env) (r0 r1 atags size : Nat) (mem : Mem) (e : Event)
    (he : e ∈ (boot env r0 r1 atags size mem).trace) (hc : e.isCall = true) :
    e = .call 0x8000 r0 r1 atags := by
  rw [boot_trace] at he
  simp only [List.mem_append, List.mem_cons, List.mem_singleton, List.not_mem_nil, or_false]
    at he
  rcases he with (he | he | he | he | he | he | he) | he
  · rw [he] at hc; simp [Event.isCall] at hc
  · rw [he] at hc; simp [Event.isCall] at hc
  · rw [he] at hc; simp [Event.isCall] at hc
  · rw [he] at hc; simp [Event.isCall] at hc
  · rw [he] at hc; simp [Event.isCall] at hc
  · rw [he] at hc; simp [Event.isCall] at hc
  · exact he
  · split at he
    · simp only [List.mem_singleton] at he
      rw [he] at hc; simp [Event.isCall] at hc
    · simp at he

/-- Every call event of the loop body is the handoff with the entry values. -/
theorem again_call_events (env : Env) (r0 r1 atags : Nat) :
    ∀ (n : Nat) (inp : List Byte) (mem : Mem) (e : Event), inp.length ≤ n →
      e ∈ (again env r0 r1 atags inp mem).trace → e.isCall = true →
        e = .call 0x8000 r0 r1 atags := by
  have hshort : ∀ (inp : List Byte) (mem : Mem) (e : Event),
      e ∈ announce env r0 r1 atags ++ .puts breaks :: inp.map .getc → e.isCall = true → False := by
    intro inp mem e he hc
    simp only [List.mem_append, List.mem_cons, List.mem_map] at he
    rcases he with he | he | ⟨b, _, he⟩
    · rw [(announce_events env r0 r1 atags e he).1] at hc; cases hc
    · rw [he] at hc; cases hc
    · rw [← he] at hc; cases hc
  have hpre : ∀ (b0 b1 b2 b3 : Byte) (code : String) (e : Event),
      e ∈ announce env r0 r1 atags ++ [.puts breaks, .getc b0, .getc b1, .getc b2, .getc b3]
        ++ [.puts code] → e.isCall = true → False := by
    intro b0 b1 b2 b3 code e he hc
    simp only [List.mem_append, List.mem_cons, List.mem_singleton, List.not_mem_nil, or_false]
      at he
    rcases he with (he | he | he | he | he | he) | he
    · rw [(announce_events env r0 r1 atags e he).1] at hc; cases hc
    all_goals (rw [he] at hc; cases hc)
  intro n
  induction n with
  | zero =>
    intro inp mem e hlen he hc
    have : inp = [] := List.length_eq_zero.mp (Nat.le_zero.mp hlen)
    subst this
    exact (hshort [] mem e (by simpa [again] using he) hc).elim
  | succ n ih =>
    intro inp mem e hlen he hc
    match inp, hlen, he with
    | [], _, he => exact (hshort [] mem e (by simpa [again] using he) hc).elim
    | [a], _, he => exact (hshort [a] mem e (by simpa [again] using he) hc).elim
    | [a, b], _, he => exact (hshort [a, b] mem e (by simpa [again] using he) hc).elim
    | [a, b, c], _, he => exact (hshort [a, b, c] mem e (by simpa [again] using he) hc).elim
    | b0 :: b1 :: b2 :: b3 :: rest, hlen, he =>
      rw [again_step] at he
      by_cases h : (0x8000 + readSize b0 b1 b2 b3) % 2 ^ 32 > LOADER_ADDR
      · rw [if_pos h] at he
        rcases List.mem_append.mp he with he | he
        · exact (hpre b0 b1 b2 b3 "SE" e he hc).elim
        · exact ih rest mem e (by simp only [List.length_cons] at hlen; omega) he hc
      · rw [if_neg h] at he
        by_cases hr : (receive (readSize b0 b1 b2 b3) rest 0 mem).2.2 = true
        · rw [if_pos hr] at he
          rcases List.mem_append.mp he with he | he
          rcases List.mem_append.mp he with he | he
          · exact (hpre b0 b1 b2 b3 "OK" e he hc).elim
          · have := receive_events _ _ _ _ e he
            cases e <;> simp [Event.isCall, Event.isGetc] at hc this
          · exact boot_events env r0 r1 atags _ _ e he hc
        · rw [if_neg hr] at he
          rcases List.mem_append.mp he with he | he
          · exact (hpre b0 b1 b2 b3 "OK" e he hc).elim
          · have := receive_events _ _ _ _ e he
            cases e <;> simp [Event.isCall, Event.isGetc] at hc this

/-- Every call event of a run is the handoff with the entry values. -/
theorem kernel_main_call_events (env : Env) (r0 r1 atags : Nat) (inp : List Byte) (mem : Mem)
    (e : Event) (he : e ∈ (kernel_main env r0 r1 atags inp mem).trace) (hc : e.isCall = true) :
    e = .call 0x8000 r0 r1 atags := by
  simp only [kernel_main, Run.after, List.mem_append, List.mem_singleton] at he
  rcases he with he | he
  · rw [he] at hc; cases hc
  · exact again_call_events env r0 r1 atags inp.length inp mem e (Nat.le_refl _) he hc

/-! ## The shape of every run -/

/-- A list with a single call event splits around that event in one way only. -/
theorem split_at_call (A B : List Event) (c : Event) (hA : A.countP Event.isCall = 0)
    (hB : B.countP Event.isCall = 0) :
    ∀ (pre post : List Event) (d : Event), d.isCall = true → A ++ c :: B = pre ++ d :: post →
      pre = A ∧ d = c ∧ post = B := by
  induction A with
  | nil =>
    intro pre post d hd h
    cases pre with
    | nil =>
      simp only [List.nil_append, List.cons.injEq] at h
      exact ⟨rfl, h.1.symm, h.2.symm⟩
    | cons x pre =>
      simp only [List.nil_append, List.cons_append, List.cons.injEq] at h
      have hmem : d ∈ B := by rw [h.2]; simp
      exact absurd hd (List.countP_eq_zero.mp hB d hmem)
  | cons a A ih =>
    intro pre post d hd h
    have ha : a.isCall = false := by
      have := List.countP_eq_zero.mp hA a (by simp)
      simpa using this
    have hA2 : A.countP Event.isCall = 0 := by
      apply List.countP_eq_zero.mpr
      intro e he
      exact List.countP_eq_zero.mp hA e (by simp [he])
    cases pre with
    | nil =>
      simp only [List.nil_append, List.cons_append, List.cons.injEq] at h
      rw [h.1, hd] at ha
      cases ha
    | cons x pre =>
      simp only [List.cons_append, List.cons.injEq] at h
      obtain ⟨h1, h2, h3⟩ := ih hA2 pre post d hd h.2
      exact ⟨by rw [h.1, h1], h2, h3⟩

/-- Every run of the loop body either blocks without calling the image or ends with
the boot stage, before which the image is not called. -/
theorem again_shape (env : Env) (r0 r1 atags : Nat) :
    ∀ (n : Nat) (inp : List Byte) (mem : Mem), inp.length ≤ n →
      ((again env r0 r1 atags inp mem).trace.countP Event.isCall = 0 ∧
        (again env r0 r1 atags inp mem).outcome = .blocked) ∨
      ∃ (A : List Event) (s : Nat) (m : Mem), A.countP Event.isCall = 0 ∧
        again env r0 r1 atags inp mem = (boot env r0 r1 atags s m).after A := by
  have ha := announce_counts env r0 r1 atags
  have hshort : ∀ (inp : List Byte),
      (announce env r0 r1 atags ++ Event.puts breaks :: inp.map Event.getc).countP Event.isCall = 0 := by
    intro inp
    simp only [List.countP_append, List.countP_cons, countP_isCall_getc, ha.2.2.2.2.2]
    simp [Event.isCall]
  have hpre : ∀ (b0 b1 b2 b3 : Byte) (code : String),
      (announce env r0 r1 atags ++ [Event.puts breaks, Event.getc b0, Event.getc b1, Event.getc b2, Event.getc b3]
        ++ [Event.puts code]).countP Event.isCall = 0 := by
    intro b0 b1 b2 b3 code
    simp only [List.countP_append, ha.2.2.2.2.2]
    simp [List.countP_cons, Event.isCall]
  have hrecv : ∀ (size : Nat) (rest : List Byte) (mem : Mem),
      (receive size rest 0 mem).1.countP Event.isCall = 0 := by
    intro size rest mem
    apply List.countP_eq_zero.mpr
    intro e he
    have := receive_events size rest 0 mem e he
    cases e <;> simp [Event.isCall, Event.isGetc] at this ⊢
  intro n
  induction n with
  | zero =>
    intro inp mem hlen
    have : inp = [] := List.length_eq_zero.mp (Nat.le_zero.mp hlen)
    subst this
    exact Or.inl ⟨by simpa [again] using hshort [], by simp [again]⟩
  | succ n ih =>
    intro inp mem hlen
    match inp, hlen with
    | [], _ => exact Or.inl ⟨by simpa [again] using hshort [], by simp [again]⟩
    | [a], _ => exact Or.inl ⟨by simpa [again] using hshort [a], by simp [again]⟩
    | [a, b], _ => exact Or.inl ⟨by simpa [again] using hshort [a, b], by simp [again]⟩
    | [a, b, c], _ => exact Or.inl ⟨by simpa [again] using hshort [a, b, c], by simp [again]⟩
    | b0 :: b1 :: b2 :: b3 :: rest, hlen =>
      rw [again_step]
      by_cases h : (0x8000 + readSize b0 b1 b2 b3) % 2 ^ 32 > LOADER_ADDR
      · rw [if_pos h]
        rcases ih rest mem (by simp only [List.length_cons] at hlen; omega) with hl | hr
        · refine Or.inl ⟨?_, ?_⟩
          · rw [Run.after, List.countP_append, hpre, hl.1]
          · rw [Run.after]; exact hl.2
        · obtain ⟨A, s, m, hA, hrun⟩ := hr
          refine Or.inr ⟨(announce env r0 r1 atags ++
            [Event.puts breaks, Event.getc b0, Event.getc b1, Event.getc b2, Event.getc b3]
            ++ [Event.puts "SE"]) ++ A, s, m, ?_, ?_⟩
          · rw [List.countP_append, hpre, hA]
          · rw [hrun, Run.after_after]
      · rw [if_neg h]
        by_cases hr : (receive (readSize b0 b1 b2 b3) rest 0 mem).2.2 = true
        · rw [if_pos hr]
          refine Or.inr ⟨announce env r0 r1 atags ++
            [Event.puts breaks, Event.getc b0, Event.getc b1, Event.getc b2, Event.getc b3]
            ++ [Event.puts "OK"] ++ (receive (readSize b0 b1 b2 b3) rest 0 mem).1,
            readSize b0 b1 b2 b3, (receive (readSize b0 b1 b2 b3) rest 0 mem).2.1, ?_, rfl⟩
          rw [List.countP_append, hpre, hrecv]
        · rw [if_neg hr]
          refine Or.inl ⟨?_, rfl⟩
          rw [List.countP_append, hpre, hrecv]

/-- In any run, what follows a call of the image is decided by whether the image
returns: the halt banner and a return, or nothing. -/
theorem kernel_main_after_call (env : Env) (r0 r1 atags : Nat) (inp : List Byte) (mem : Mem)
    (pre post : List Event) (d : Event) (hd : d.isCall = true)
    (hsplit : (kernel_main env r0 r1 atags inp mem).trace = pre ++ d :: post) :
    d = Event.call 0x8000 r0 r1 atags ∧ pre.countP Event.isCall = 0 ∧
    post = (if env.fn (kernel_main env r0 r1 atags inp mem).mem r0 r1 atags
      then [Event.puts halting] else []) ∧
    (kernel_main env r0 r1 atags inp mem).outcome =
      (if env.fn (kernel_main env r0 r1 atags inp mem).mem r0 r1 atags
        then .returned else .noreturn) := by
  rcases again_shape env r0 r1 atags inp.length inp mem (Nat.le_refl _) with hl | hr
  · exfalso
    have hmem : d ∈ (kernel_main env r0 r1 atags inp mem).trace := by rw [hsplit]; simp
    simp only [kernel_main, Run.after, List.mem_append, List.mem_singleton] at hmem
    rcases hmem with hmem | hmem
    · rw [hmem] at hd; cases hd
    · exact absurd hd (List.countP_eq_zero.mp hl.1 d hmem)
  · obtain ⟨A, s, m, hA, hrun⟩ := hr
    have hk : kernel_main env r0 r1 atags inp mem =
        (boot env r0 r1 atags s m).after ([Event.uart_init] ++ A) := by
      rw [kernel_main, hrun, Run.after_after]
    rw [hk] at hsplit ⊢
    simp only [Run.after, boot_mem, boot_outcome]
    simp only [Run.after, boot_trace] at hsplit
    have hA2 : ([Event.uart_init] ++ A ++
        [ Event.kprintf "decompressing...\r\n" [],
          Event.uncompress 0x8000 MAX_SIZE (0x8000 + MAX_SIZE) s,
          Event.puts (if (env.uncompress m 0x8000 MAX_SIZE (0x8000 + MAX_SIZE) s).1 = Z_OK
            then "decompressed OK...\r\n" else "decompressed failed...\r\n"),
          Event.crc32 0 0x8000 (env.uncompress m 0x8000 MAX_SIZE (0x8000 + MAX_SIZE) s).2.1,
          Event.kprintf "CRC: 0x%08lx\n"
            [Arg.num (env.crc32 0 (env.uncompress m 0x8000 MAX_SIZE (0x8000 + MAX_SIZE) s).2.2
              0x8000 (env.uncompress m 0x8000 MAX_SIZE (0x8000 + MAX_SIZE) s).2.1)],
          Event.puts "booting..." ]).countP Event.isCall = 0 := by
      simp only [List.countP_append, hA]
      simp [List.countP_cons, Event.isCall]
    have hB : (if env.fn (env.uncompress m 0x8000 MAX_SIZE (0x8000 + MAX_SIZE) s).2.2 r0 r1 atags
        then [Event.puts halting] else []).countP Event.isCall = 0 := by
      split <;> simp [List.countP_cons, Event.isCall]
    obtain ⟨h1, h2, h3⟩ := split_at_call _ _ (Event.call 0x8000 r0 r1 atags) hA2 hB pre post d hd
      (by rw [← hsplit]; simp only [List.append_assoc, List.cons_append, List.nil_append])
    exact ⟨h2, by rw [h1]; exact hA2, h3, trivial⟩

/-! ## C1: rejected declarations -/

/-- C1 (as stated, refuted): the declared size `MAX_SIZE + 1` lies above the staging
bound, yet `kernel_main` answers `"OK"`, never `"SE"`, and goes on to consume the
octets that follow as payload. -/
theorem C1_size_above_MAX_SIZE_accepted :
    0x8000 + (MAX_SIZE + 1) > 0x8000 + MAX_SIZE ∧
    (kernel_main env0 1 2 3 (le32 (MAX_SIZE + 1) ++ [0xAA, 0xBB]) mem0).trace =
      [.uart_init] ++ announce env0 1 2 3 ++
        [.puts breaks, .getc 1, .getc 0, .getc 0x20, .getc 0, .puts "OK", .getc 0xAA, .getc 0xBB] ∧
    (kernel_main env0 1 2 3 (le32 (MAX_SIZE + 1) ++ [0xAA, 0xBB]) mem0).outcome = .blocked := by
  decide

/-- C1 (amended): every 32-bit declared size `s` with
`(0x8000 + s) mod 2^32 > LOADER_ADDR` is answered `"SE"` right after its four
octets; nothing more is consumed for it, and the loader carries on from the label
`again` with the octets that follow: it sends the break sequence again and reads the
next four octets as a new size. -/
theorem C1_rejected_size_reenters (env : Env) (r0 r1 atags s : Nat) (rest : List Byte)
    (mem : Mem) (hs : s < 2 ^ 32) (hbig : (0x8000 + s) % 2 ^ 32 > LOADER_ADDR) :
    kernel_main env r0 r1 atags (le32 s ++ rest) mem =
        (again env r0 r1 atags rest mem).after
          ([.uart_init] ++ announce env r0 r1 atags ++ [.puts breaks] ++ (le32 s).map .getc
            ++ [.puts "SE"]) ∧
    ∀ (c0 c1 c2 c3 : Byte) (more : List Byte), rest = c0 :: c1 :: c2 :: c3 :: more →
      ∃ tail, (kernel_main env r0 r1 atags (le32 s ++ rest) mem).trace =
        [.uart_init] ++ announce env r0 r1 atags ++ [.puts breaks] ++ (le32 s).map .getc
          ++ [.puts "SE"] ++ announce env r0 r1 atags ++
          [.puts breaks, .getc c0, .getc c1, .getc c2, .getc c3,
            .puts (if (0x8000 + readSize c0 c1 c2 c3) % 2 ^ 32 > LOADER_ADDR then "SE" else "OK")]
          ++ tail := by
  have key : kernel_main env r0 r1 atags (le32 s ++ rest) mem =
      (again env r0 r1 atags rest mem).after
        ([.uart_init] ++ announce env r0 r1 atags ++ [.puts breaks] ++ (le32 s).map .getc
          ++ [.puts "SE"]) := by
    rw [kernel_main, again_reject env r0 r1 atags s rest mem hs hbig, Run.after_after, negotiation]
    simp only [List.append_assoc]
  refine ⟨key, ?_⟩
  intro c0 c1 c2 c3 more hrest
  obtain ⟨tail, ht⟩ := again_head env r0 r1 atags c0 c1 c2 c3 more mem
  refine ⟨tail, ?_⟩
  rw [key, hrest]
  simp only [Run.after, ht, List.append_assoc]

/-- C1 (amended), instance: the declaration `0x2000000`, followed by one more
declaration. -/
theorem C1_rejected_size_reenters_witness :
    (0x2000000 < 2 ^ 32 ∧ (0x8000 + 0x2000000) % 2 ^ 32 > LOADER_ADDR) ∧
    kernel_main env0 1 2 3 (le32 0x2000000 ++ [4, 0, 0, 0]) mem0 =
      (again env0 1 2 3 [4, 0, 0, 0] mem0).after
        ([.uart_init] ++ announce env0 1 2 3 ++ [.puts breaks] ++ (le32 0x2000000).map .getc
          ++ [.puts "SE"]) :=
  ⟨by decide, (C1_rejected_size_reenters env0 1 2 3 0x2000000 [4, 0, 0, 0] mem0 (by decide)
    (by decide)).1⟩

/-! ## C2: accepted declarations -/

/-- C2: a declared size `s ≤ MAX_SIZE`, sent after any number of rejected
declarations, is answered `"OK"` exactly once and never `"SE"`; the loader then
reads exactly the `s` octets of the payload, leaving every later octet unread, and
proceeds to decompression.  With fewer than `s` octets available it reads them all
and stays blocked in the receive loop. -/
theorem C2_accepted_size_reads_exactly (env : Env) (r0 r1 atags : Nat) (ss : List Nat) (s : Nat)
    (payload extra : List Byte) (mem : Mem)
    (hss : ∀ x ∈ ss, x < 2 ^ 32 ∧ (0x8000 + x) % 2 ^ 32 > LOADER_ADDR)
    (hs : s ≤ MAX_SIZE) (hp : payload.length = s) :
    kernel_main env r0 r1 atags (declare ss ++ (le32 s ++ (payload ++ extra))) mem =
        (again env r0 r1 atags (le32 s ++ (payload ++ extra)) mem).after
          ([.uart_init] ++ rejections env r0 r1 atags ss) ∧
    (∃ tail, (again env r0 r1 atags (le32 s ++ (payload ++ extra)) mem).trace =
        announce env r0 r1 atags ++ [.puts breaks] ++ (le32 s).map .getc ++ [.puts "OK"]
          ++ payload.map .getc
          ++ [.kprintf "decompressing...\r\n" [],
              .uncompress 0x8000 MAX_SIZE (0x8000 + MAX_SIZE) s] ++ tail) ∧
    (again env r0 r1 atags (le32 s ++ (payload ++ extra)) mem).trace.count (.puts "OK") = 1 ∧
    (again env r0 r1 atags (le32 s ++ (payload ++ extra)) mem).trace.count (.puts "SE") = 0 ∧
    (again env r0 r1 atags (le32 s ++ (payload ++ extra)) mem).trace.countP Event.isGetc = 4 + s ∧
    ∀ few : List Byte, few.length < s →
      again env r0 r1 atags (le32 s ++ few) mem =
        ⟨announce env r0 r1 atags ++ [.puts breaks] ++ (le32 s).map .getc ++ [.puts "OK"]
          ++ few.map .getc, .blocked, stage mem 0 few⟩ := by
  have hs32 : s < 2 ^ 32 := by simp only [MAX_SIZE] at hs; omega
  have hok : (0x8000 + s) % 2 ^ 32 ≤ LOADER_ADDR := by
    simp only [MAX_SIZE] at hs; simp only [LOADER_ADDR]; omega
  have hacc := again_accept env r0 r1 atags s payload extra mem hs32 hok hp
  have hb := boot_counts env r0 r1 atags s (stage mem 0 payload)
  have ha := announce_counts env r0 r1 atags
  refine ⟨kernel_main_rejects env r0 r1 atags ss _ mem hss, ?_, ?_, ?_, ?_, ?_⟩
  · rw [hacc, Run.after, boot_trace, negotiation]
    exact ⟨_, by simp only [List.append_assoc, List.cons_append, List.nil_append]; rfl⟩
  · rw [hacc]
    simp only [Run.after, negotiation, List.count_append, count_puts_getc, hb.1, ha.1]
    simp [List.count_cons, breaks]
  · rw [hacc]
    simp only [Run.after, negotiation, List.count_append, count_puts_getc, hb.2.1, ha.2.1]
    simp [List.count_cons, breaks]
  · rw [hacc]
    simp only [Run.after, negotiation, List.countP_append, countP_isGetc_getc, hb.2.2.2.2.1,
      ha.2.2.2.2.1, hp]
    simp [List.countP_cons, Event.isGetc, le32]
  · intro few hfew
    rw [again_stall env r0 r1 atags s few mem hs32 hok hfew, negotiation]

/-- C2, instance: after one rejected declaration, the size 2 with payload `AA BB` and
one further octet on the channel. -/
theorem C2_accepted_size_reads_exactly_witness :
    ((∀ x ∈ [0x2000000], x < 2 ^ 32 ∧ (0x8000 + x) % 2 ^ 32 > LOADER_ADDR) ∧ 2 ≤ MAX_SIZE ∧
      ([0xAA, 0xBB] : List Byte).length = 2) ∧
    (again env0 1 2 3 (le32 2 ++ ([0xAA, 0xBB] ++ [0xCC])) mem0).trace.countP Event.isGetc
      = 4 + 2 :=
  ⟨by decide, (C2_accepted_size_reads_exactly env0 1 2 3 [0x2000000] 2 [0xAA, 0xBB] [0xCC] mem0
    (by decide) (by decide) rfl).2.2.2.2.1⟩

/-! ## C3: where the payload is staged -/

/-- C3 (failing input): the declared size `0x1E00000` is accepted, and the receive
loop then stores payload octet number `0x1DF8000` at `LOADER_ADDR`, the first
address of the loader's own image. -/
theorem C3_staging_reaches_loader :
    (0x8000 + 0x1E00000) % 2 ^ 32 ≤ LOADER_ADDR ∧
    (∃ tail, (kernel_main env0 1 2 3 (le32 0x1E00000 ++ List.replicate 0x1E00000 0xAA) mem0).trace =
      [.uart_init] ++ announce env0 1 2 3 ++ [.puts breaks] ++ (le32 0x1E00000).map .getc
        ++ [.puts "OK"] ++ tail) ∧
    mem0 LOADER_ADDR = 0 ∧
    (kernel_main env0 1 2 3 (le32 0x1E00000 ++ List.replicate 0x1E00000 0xAA) mem0).mem
      LOADER_ADDR = 0xAA := by
  have hlen : (List.replicate 0x1E00000 (0xAA : Byte)).length = 0x1E00000 :=
    List.length_replicate _ _
  have hget : ∀ h : 0x1DF8000 < (List.replicate 0x1E00000 (0xAA : Byte)).length,
      (List.replicate 0x1E00000 (0xAA : Byte))[0x1DF8000] = 0xAA :=
    fun h => List.getElem_replicate _ h
  generalize List.replicate 0x1E00000 (0xAA : Byte) = p at hlen hget
  have hacc := again_accept env0 1 2 3 0x1E00000 p [] mem0 (by decide) (by decide) hlen
  rw [List.append_nil] at hacc
  have haddr : (0x8000 + MAX_SIZE + (0 + 0x1DF8000)) % 2 ^ 32 = LOADER_ADDR := by decide
  have hj : 0x1DF8000 < p.length := by rw [hlen]; decide
  have hst := stage_read p mem0 0 0x1DF8000 hj (by rw [hlen]; decide)
  rw [haddr, hget hj] at hst
  refine ⟨by decide, ?_, rfl, ?_⟩
  · rw [kernel_main, hacc]
    exact ⟨_, by simp only [Run.after, negotiation, List.append_assoc]; rfl⟩
  · rw [kernel_main, hacc]
    simp only [Run.after, boot_mem]
    exact hst

/-! ## C4: the declared size -/

/-- C4: in every negotiation attempt, whatever number of rejected attempts came
before, the loader reads exactly the four octets `b0 b1 b2 b3`, in that order,
between the break sequence and its response code, and the size it tests is
`b0 + 2^8 b1 + 2^16 b2 + 2^24 b3`, an unsigned 32-bit value. -/
theorem C4_size_is_little_endian (env : Env) (r0 r1 atags : Nat) (ss : List Nat)
    (b0 b1 b2 b3 : Byte) (rest : List Byte) (mem : Mem)
    (hss : ∀ x ∈ ss, x < 2 ^ 32 ∧ (0x8000 + x) % 2 ^ 32 > LOADER_ADDR) :
    readSize b0 b1 b2 b3 = b0.val + 2 ^ 8 * b1.val + 2 ^ 16 * b2.val + 2 ^ 24 * b3.val ∧
    readSize b0 b1 b2 b3 < 2 ^ 32 ∧
    ∃ tail, (kernel_main env r0 r1 atags (declare ss ++ b0 :: b1 :: b2 :: b3 :: rest) mem).trace =
      [.uart_init] ++ rejections env r0 r1 atags ss ++ announce env r0 r1 atags ++
        [.puts breaks, .getc b0, .getc b1, .getc b2, .getc b3,
          .puts (if (0x8000 + (b0.val + 2 ^ 8 * b1.val + 2 ^ 16 * b2.val + 2 ^ 24 * b3.val))
              % 2 ^ 32 > LOADER_ADDR then "SE" else "OK")]
        ++ tail := by
  refine ⟨readSize_eq b0 b1 b2 b3, readSize_lt b0 b1 b2 b3, ?_⟩
  obtain ⟨tail, ht⟩ := again_head env r0 r1 atags b0 b1 b2 b3 rest mem
  refine ⟨tail, ?_⟩
  rw [kernel_main_rejects env r0 r1 atags ss _ mem hss, ← readSize_eq]
  simp only [Run.after, ht, List.append_assoc]

/-- C4, instance: the octets `78 56 34 12` after one rejected declaration. -/
theorem C4_size_is_little_endian_witness :
    (∀ x ∈ [0xFFFF0000], x < 2 ^ 32 ∧ (0x8000 + x) % 2 ^ 32 > LOADER_ADDR) ∧
    readSize 0x78 0x56 0x34 0x12 = 0x12345678 :=
  ⟨by decide, (C4_size_is_little_endian env0 1 2 3 [0xFFFF0000] 0x78 0x56 0x34 0x12 [] mem0
    (by decide)).1⟩

/-! ## C5: rejections leave no mark -/

/-- C6: once a size is accepted and its payload received, whatever status the
decoder returns, the loader reports it (`"decompressed OK..."` exactly when the
status is `Z_OK`, `"decompressed failed..."` otherwise) and then calls the image at
`0x8000`; that call is the only one of the run, and after `"OK"` the loader sends
neither `"SE"` nor another break sequence nor another banner. -/
theorem C6_decoder_status_is_ignored (env : Env) (r0 r1 atags : Nat) (ss : List Nat) (s : Nat)
    (payload extra : List Byte) (mem : Mem)
    (hss : ∀ x ∈ ss, x < 2 ^ 32 ∧ (0x8000 + x) % 2 ^ 32 > LOADER_ADDR)
    (hs : s < 2 ^ 32) (hok : (0x8000 + s) % 2 ^ 32 ≤ LOADER_ADDR) (hp : payload.length = s) :
    ∃ (pre after_ok : List Event),
      (kernel_main env r0 r1 atags (declare ss ++ (le32 s ++ (payload ++ extra))) mem).trace =
        pre ++ [.puts "OK"] ++ after_ok ∧
      after_ok = payload.map .getc ++
        [ .kprintf "decompressing...\r\n" [],
          .uncompress 0x8000 MAX_SIZE (0x8000 + MAX_SIZE) s,
          .puts (if (env.uncompress (stage mem 0 payload) 0x8000 MAX_SIZE (0x8000 + MAX_SIZE) s).1
              = Z_OK then "decompressed OK...\r\n" else "decompressed failed...\r\n"),
          .crc32 0 0x8000
            (env.uncompress (stage mem 0 payload) 0x8000 MAX_SIZE (0x8000 + MAX_SIZE) s).2.1,
          .kprintf "CRC: 0x%08lx\n"
            [.num (env.crc32 0
              (env.uncompress (stage mem 0 payload) 0x8000 MAX_SIZE (0x8000 + MAX_SIZE) s).2.2
              0x8000
              (env.uncompress (stage mem 0 payload) 0x8000 MAX_SIZE (0x8000 + MAX_SIZE) s).2.1)],
          .puts "booting...",
          .call 0x8000 r0 r1 atags ] ++
        (if env.fn (env.uncompress (stage mem 0 payload) 0x8000 MAX_SIZE (0x8000 + MAX_SIZE) s).2.2
          r0 r1 atags then [.puts halting] else []) ∧
      after_ok.count (.puts "SE") = 0 ∧
      after_ok.count (.puts breaks) = 0 ∧
      after_ok.count (.kprintf hello []) = 0 ∧
      after_ok.countP Event.isCall = 1 ∧
      pre.countP Event.isCall = 0 := by
  have h2 := kernel_main_accept env r0 r1 atags ss s payload extra mem hss hs hok hp
  have hb := boot_counts env r0 r1 atags s (stage mem 0 payload)
  have ha := announce_counts env r0 r1 atags
  have hr := rejections_counts env r0 r1 atags ss
  have hbt := boot_trace env r0 r1 atags s (stage mem 0 payload)
  refine ⟨[.uart_init] ++ rejections env r0 r1 atags ss ++ announce env r0 r1 atags
      ++ [.puts breaks] ++ (le32 s).map .getc,
    payload.map .getc ++ (boot env r0 r1 atags s (stage mem 0 payload)).trace, ?_, ?_, ?_, ?_, ?_,
    ?_, ?_⟩
  · rw [h2]; simp only [Run.after, negotiation, List.append_assoc]
  · rw [hbt, List.append_assoc]
  · simp only [List.count_append, count_puts_getc, hb.2.1]
  · simp only [List.count_append, count_puts_getc, hb.2.2.1]
  · simp only [List.count_append, count_kprintf_getc, hb.2.2.2.1]
  · simp only [List.countP_append, countP_isCall_getc, hb.2.2.2.2.2]
  · simp only [List.countP_append, countP_isCall_getc, hr.2.2.2.2, ha.2.2.2.2.2]
    simp [List.countP_cons, Event.isCall]

/-- C6, instance: size 2, a decoder that fails, an image that returns. -/
theorem C6_decoder_status_is_ignored_witness :
    ((∀ x ∈ [0x2000000], x < 2 ^ 32 ∧ (0x8000 + x) % 2 ^ 32 > LOADER_ADDR) ∧
      2 < 2 ^ 32 ∧ (0x8000 + 2) % 2 ^ 32 ≤ LOADER_ADDR ∧ ([0xAA, 0xBB] : List Byte).length = 2) ∧
    (env0.uncompress (stage mem0 0 [0xAA, 0xBB]) 0x8000 MAX_SIZE (0x8000 + MAX_SIZE) 2).1 ≠ Z_OK ∧
    ∃ (pre after_ok : List Event),
      (kernel_main env0 1 2 3 (declare [0x2000000] ++ (le32 2 ++ ([0xAA, 0xBB] ++ [0xCC])))
        mem0).trace = pre ++ [.puts "OK"] ++ after_ok ∧
      after_ok.countP Event.isCall = 1 :=
  ⟨by decide, by decide,
    (C6_decoder_status_is_ignored env0 1 2 3 [0x2000000] 2 [0xAA, 0xBB] [0xCC] mem0
      (by decide) (by decide) (by decide) rfl).imp
      (fun _ h => h.imp (fun _ h2 => ⟨h2.1, h2.2.2.2.2.2.1⟩))⟩

/-! ## C7: round trip -/

/-- C7: let the decoder invert `compress` on the buffers `kernel_main` hands it:
whenever the staging buffer holds `compress y` with `|y| ≤ MAX_SIZE`, the call
`uncompress(0x8000, MAX_SIZE, staging, |compress y|)` returns `Z_OK` and leaves `y`
at `0x8000`.  If the host declares `|compress x|`, which the loader accepts, and
sends `compress x`, then the loader stores those octets in order in the staging
buffer, calls the decoder with output `0x8000`, capacity `MAX_SIZE`, input
`0x8000 + MAX_SIZE` and input length `|compress x|`, reports success, and the
octets at `0x8000 ..< 0x8000 + |x|` are then those of `x`. -/
theorem C7_round_trip (env : Env) (r0 r1 atags : Nat) (compress : List Byte → List Byte)
    (x extra : List Byte) (mem : Mem)
    (hdec : ∀ (m : Mem) (y : List Byte), y.length ≤ MAX_SIZE →
      (∀ (j : Nat) (h : j < (compress y).length),
        m ((0x8000 + MAX_SIZE + j) % 2 ^ 32) = (compress y)[j]) →
      (env.uncompress m 0x8000 MAX_SIZE (0x8000 + MAX_SIZE) (compress y).length).1 = Z_OK ∧
      ∀ (j : Nat) (h : j < y.length),
        (env.uncompress m 0x8000 MAX_SIZE (0x8000 + MAX_SIZE) (compress y).length).2.2
          (0x8000 + j) = y[j])
    (hx : x.length ≤ MAX_SIZE) (hs : (compress x).length < 2 ^ 32)
    (hok : (0x8000 + (compress x).length) % 2 ^ 32 ≤ LOADER_ADDR) :
    ∃ (m : Mem) (pre post : List Event),
      (∀ (j : Nat) (h : j < (compress x).length),
        m ((0x8000 + MAX_SIZE + j) % 2 ^ 32) = (compress x)[j]) ∧
      kernel_main env r0 r1 atags (le32 (compress x).length ++ (compress x ++ extra)) mem =
        (boot env r0 r1 atags (compress x).length m).after pre ∧
      (boot env r0 r1 atags (compress x).length m).trace =
        [ .kprintf "decompressing...\r\n" [],
          .uncompress 0x8000 MAX_SIZE (0x8000 + MAX_SIZE) (compress x).length,
          .puts "decompressed OK...\r\n" ] ++ post ∧
      (kernel_main env r0 r1 atags (le32 (compress x).length ++ (compress x ++ extra)) mem).mem =
        (env.uncompress m 0x8000 MAX_SIZE (0x8000 + MAX_SIZE) (compress x).length).2.2 ∧
      ∀ (j : Nat) (h : j < x.length),
        (kernel_main env r0 r1 atags (le32 (compress x).length ++ (compress x ++ extra)) mem).mem
          (0x8000 + j) = x[j] := by
  have h1 := kernel_main_accept env r0 r1 atags [] (compress x).length (compress x) extra mem
    (by simp) hs hok rfl
  simp only [declare, rejections, List.nil_append, List.append_nil] at h1
  have hst := stage_holds mem (compress x) hs
  obtain ⟨hz, hout⟩ := hdec (stage mem 0 (compress x)) x hx hst
  refine ⟨stage mem 0 (compress x), _,
    [ .crc32 0 0x8000
        (env.uncompress (stage mem 0 (compress x)) 0x8000 MAX_SIZE (0x8000 + MAX_SIZE)
          (compress x).length).2.1,
      .kprintf "CRC: 0x%08lx\n"
        [.num (env.crc32 0
          (env.uncompress (stage mem 0 (compress x)) 0x8000 MAX_SIZE (0x8000 + MAX_SIZE)
            (compress x).length).2.2
          0x8000
          (env.uncompress (stage mem 0 (compress x)) 0x8000 MAX_SIZE (0x8000 + MAX_SIZE)
            (compress x).length).2.1)],
      .puts "booting...",
      .call 0x8000 r0 r1 atags ] ++
    (if env.fn (env.uncompress (stage mem 0 (compress x)) 0x8000 MAX_SIZE (0x8000 + MAX_SIZE)
        (compress x).length).2.2 r0 r1 atags then [.puts halting] else []),
    hst, h1, ?_, ?_, ?_⟩
  · rw [boot_trace, hz, if_pos rfl]
    simp only [List.cons_append, List.nil_append]
  · rw [h1]; simp only [Run.after, boot_mem]
  · intro j h
    rw [h1]; simp only [Run.after, boot_mem]
    exact hout j h

/-- C7, instance: the copying decoder, which inverts the identity compression, and
the image `01 02 03`. -/
theorem C7_round_trip_witness :
    ((∀ (m : Mem) (y : List Byte), y.length ≤ MAX_SIZE →
        (∀ (j : Nat) (h : j < y.length), m ((0x8000 + MAX_SIZE + j) % 2 ^ 32) = y[j]) →
        (env1.uncompress m 0x8000 MAX_SIZE (0x8000 + MAX_SIZE) y.length).1 = Z_OK ∧
        ∀ (j : Nat) (h : j < y.length),
          (env1.uncompress m 0x8000 MAX_SIZE (0x8000 + MAX_SIZE) y.length).2.2 (0x8000 + j) = y[j]) ∧
      ([1, 2, 3] : List Byte).length ≤ MAX_SIZE ∧ ([1, 2, 3] : List Byte).length < 2 ^ 32 ∧
      (0x8000 + ([1, 2, 3] : List Byte).length) % 2 ^ 32 ≤ LOADER_ADDR) ∧
    ∀ (j : Nat) (h : j < ([1, 2, 3] : List Byte).length),
      (kernel_main env1 1 2 3 (le32 3 ++ ([1, 2, 3] ++ [9])) mem0).mem (0x8000 + j)
        = ([1, 2, 3] : List Byte)[j] :=
  ⟨⟨copyDecoder_inverts, by decide, by decide, by decide⟩,
    (C7_round_trip env1 1 2 3 (fun y => y) [1, 2, 3] [9] mem0 copyDecoder_inverts (by decide)
      (by decide) (by decide)).elim (fun _ h => h.elim (fun _ h => h.elim (fun _ h => h.2.2.2.2)))⟩

/-! ## C8: the handoff -/

/-- C8: on every input that carries an accepted declaration and its payload, after
any number of rejected declarations, the run contains exactly one call of the
loaded image, and it is the call of address `0x8000` with the three values `r0`,
`r1`, `atags` that `kernel_main` received.  More generally, no run on any input
contains a call with another target or other arguments. -/
theorem C8_handoff_passes_entry_arguments (env : Env) (r0 r1 atags : Nat) (ss : List Nat)
    (s : Nat) (payload extra : List Byte) (mem : Mem)
    (hss : ∀ x ∈ ss, x < 2 ^ 32 ∧ (0x8000 + x) % 2 ^ 32 > LOADER_ADDR)
    (hs : s < 2 ^ 32) (hok : (0x8000 + s) % 2 ^ 32 ≤ LOADER_ADDR) (hp : payload.length = s) :
    (∃ (pre post : List Event),
      (kernel_main env r0 r1 atags (declare ss ++ (le32 s ++ (payload ++ extra))) mem).trace =
        pre ++ [.call 0x8000 r0 r1 atags] ++ post ∧
      pre.countP Event.isCall = 0 ∧ post.countP Event.isCall = 0) ∧
    ∀ (input : List Byte) (init : Mem) (e : Event),
      e ∈ (kernel_main env r0 r1 atags input init).trace → e.isCall = true →
        e = .call 0x8000 r0 r1 atags := by
  have h2 := kernel_main_accept env r0 r1 atags ss s payload extra mem hss hs hok hp
  have ha := announce_counts env r0 r1 atags
  have hr := rejections_counts env r0 r1 atags ss
  refine ⟨⟨[.uart_init] ++ rejections env r0 r1 atags ss ++
        (negotiation env r0 r1 atags s "OK" ++ payload.map .getc) ++
        [ .kprintf "decompressing...\r\n" [],
          .uncompress 0x8000 MAX_SIZE (0x8000 + MAX_SIZE) s,
          .puts (if (env.uncompress (stage mem 0 payload) 0x8000 MAX_SIZE (0x8000 + MAX_SIZE) s).1
              = Z_OK then "decompressed OK...\r\n" else "decompressed failed...\r\n"),
          .crc32 0 0x8000
            (env.uncompress (stage mem 0 payload) 0x8000 MAX_SIZE (0x8000 + MAX_SIZE) s).2.1,
          .kprintf "CRC: 0x%08lx\n"
            [.num (env.crc32 0
              (env.uncompress (stage mem 0 payload) 0x8000 MAX_SIZE (0x8000 + MAX_SIZE) s).2.2
              0x8000
              (env.uncompress (stage mem 0 payload) 0x8000 MAX_SIZE (0x8000 + MAX_SIZE) s).2.1)],
          .puts "booting..." ],
      (if env.fn (env.uncompress (stage mem 0 payload) 0x8000 MAX_SIZE (0x8000 + MAX_SIZE) s).2.2
        r0 r1 atags then [.puts halting] else []), ?_, ?_, ?_⟩,
    fun input init e he hc => kernel_main_call_events env r0 r1 atags input init e he hc⟩
  · rw [h2]
    simp only [Run.after, boot_trace, List.append_assoc, List.cons_append, List.nil_append]
  · simp only [negotiation, List.countP_append, countP_isCall_getc, hr.2.2.2.2, ha.2.2.2.2.2]
    simp [List.countP_cons, Event.isCall]
  · split <;> simp [List.countP_cons, Event.isCall]

/-- C8, instance: entry values 1, 2, 3, one rejected declaration, then size 2. -/
theorem C8_handoff_passes_entry_arguments_witness :
    ((∀ x ∈ [0x2000000], x < 2 ^ 32 ∧ (0x8000 + x) % 2 ^ 32 > LOADER_ADDR) ∧
      2 < 2 ^ 32 ∧ (0x8000 + 2) % 2 ^ 32 ≤ LOADER_ADDR ∧ ([0xAA, 0xBB] : List Byte).length = 2) ∧
    ∃ (pre post : List Event),
      (kernel_main env0 1 2 3 (declare [0x2000000] ++ (le32 2 ++ ([0xAA, 0xBB] ++ []))) mem0).trace =
        pre ++ [.call 0x8000 1 2 3] ++ post ∧
      pre.countP Event.isCall = 0 ∧ post.countP Event.isCall = 0 :=
  ⟨by decide, (C8_handoff_passes_entry_arguments env0 1 2 3 [0x2000000] 2 [0xAA, 0xBB] [] mem0
    (by decide) (by decide) (by decide) rfl).1⟩

/-! ## C9: when the image returns -/

/-- C9: in every run, on every channel input, if the image is called and returns
(entered with the memory of that moment), then the only event after the call is
the halt banner `"\r\n*** system halting ***"` and `kernel_main` returns to its
caller: no banner, no break sequence and no read follow the handoff, whatever is
left on the channel.  The call is the only one of the run. -/
theorem C9_halts_after_return (env : Env) (r0 r1 atags : Nat) (input : List Byte) (mem : Mem)
    (pre post : List Event) (d : Event) (hd : d.isCall = true)
    (hsplit : (kernel_main env r0 r1 atags input mem).trace = pre ++ d :: post)
    (hret : env.fn (kernel_main env r0 r1 atags input mem).mem r0 r1 atags = true) :
    post = [.puts halting] ∧
    halting = "\r\n*** system halting ***" ∧
    (kernel_main env r0 r1 atags input mem).outcome = .returned ∧
    d = .call 0x8000 r0 r1 atags ∧
    pre.countP Event.isCall = 0 := by
  obtain ⟨h1, h2, h3, h4⟩ := kernel_main_after_call env r0 r1 atags input mem pre post d hd hsplit
  rw [hret] at h3 h4
  exact ⟨h3, rfl, h4, h1, h2⟩

/-- C9, instance: size 2, payload `AA BB`, one octet left on the channel, and the
image of `env0`, which returns. -/
theorem C9_halts_after_return_witness :
    ((Event.call 0x8000 1 2 3).isCall = true ∧
      (kernel_main env0 1 2 3 (le32 2 ++ [0xAA, 0xBB, 0xCC]) mem0).trace =
        ([.uart_init] ++ announce env0 1 2 3 ++
          [ .puts breaks, .getc 2, .getc 0, .getc 0, .getc 0, .puts "OK", .getc 0xAA, .getc 0xBB,
            .kprintf "decompressing...\r\n" [],
            .uncompress 0x8000 MAX_SIZE (0x8000 + MAX_SIZE) 2,
            .puts "decompressed failed...\r\n",
            .crc32 0 0x8000 MAX_SIZE,
            .kprintf "CRC: 0x%08lx\n" [.num 0],
            .puts "booting..." ]) ++ Event.call 0x8000 1 2 3 :: [.puts halting] ∧
      env0.fn (kernel_main env0 1 2 3 (le32 2 ++ [0xAA, 0xBB, 0xCC]) mem0).mem 1 2 3 = true) ∧
    (kernel_main env0 1 2 3 (le32 2 ++ [0xAA, 0xBB, 0xCC]) mem0).outcome = .returned :=
  ⟨⟨rfl, by decide, rfl⟩,
    (C9_halts_after_return env0 1 2 3 (le32 2 ++ [0xAA, 0xBB, 0xCC]) mem0
      ([.uart_init] ++ announce env0 1 2 3 ++
        [ .puts breaks, .getc 2, .getc 0, .getc 0, .getc 0, .puts "OK", .getc 0xAA, .getc 0xBB,
          .kprintf "decompressing...\r\n" [],
          .uncompress 0x8000 MAX_SIZE (0x8000 + MAX_SIZE) 2,
          .puts "decompressed failed...\r\n",
          .crc32 0 0x8000 MAX_SIZE,
          .kprintf "CRC: 0x%08lx\n" [.num 0],
          .puts "booting..." ])
      [.puts halting] (.call 0x8000 1 2 3) rfl (by decide) rfl).2.2.1⟩

/-! ## C10: where a rejection resumes -/

/-- C10 (as stated, refuted): in the run on the single rejected declaration
`0x2000000` the banner is emitted twice, and the event that follows `"SE"` is the
banner, not the break sequence. -/
theorem C10_banner_repeats_after_rejection :
    (0x8000 + 0x2000000) % 2 ^ 32 > LOADER_ADDR ∧
    (kernel_main env0 1 2 3 (le32 0x2000000) mem0).trace =
      [.uart_init] ++ announce env0 1 2 3 ++
        [.puts breaks, .getc 0, .getc 0, .getc 0, .getc 2, .puts "SE"] ++
        announce env0 1 2 3 ++ [.puts breaks] ∧
    (kernel_main env0 1 2 3 (le32 0x2000000) mem0).trace.count (.kprintf hello []) = 2 ∧
    (kernel_main env0 1 2 3 (le32 0x2000000) mem0).trace[12]? = some (.puts "SE") ∧
    (kernel_main env0 1 2 3 (le32 0x2000000) mem0).trace[13]? = some (.kprintf hello []) := by
  decide

/-- C10 (amended): a rejection resumes at the label `again`, which stands before the
banner.  `UART::init` runs once per run, but the banner and diagnostic snapshot are
emitted once per negotiation attempt: `n + 1` times when `n` rejected declarations
precede an accepted one.  Each `"SE"` is followed by the banner and snapshot, sent to
the logging sink, and then by the 3-byte break sequence. -/
theorem C10_rejection_resumes_at_banner (env : Env) (r0 r1 atags : Nat) (ss : List Nat)
    (s : Nat) (payload extra : List Byte) (mem : Mem)
    (hss : ∀ x ∈ ss, x < 2 ^ 32 ∧ (0x8000 + x) % 2 ^ 32 > LOADER_ADDR)
    (hs : s < 2 ^ 32) (hok : (0x8000 + s) % 2 ^ 32 ≤ LOADER_ADDR) (hp : payload.length = s) :
    (kernel_main env r0 r1 atags (declare ss ++ (le32 s ++ (payload ++ extra))) mem).trace.count
        (.kprintf hello []) = ss.length + 1 ∧
    (kernel_main env r0 r1 atags (declare ss ++ (le32 s ++ (payload ++ extra))) mem).trace.count
        .uart_init = 1 ∧
    ∀ (before : List Nat) (x : Nat) (later : List Nat), ss = before ++ x :: later →
      ∃ tail,
        (kernel_main env r0 r1 atags (declare ss ++ (le32 s ++ (payload ++ extra))) mem).trace =
          [.uart_init] ++ rejections env r0 r1 atags before ++ announce env r0 r1 atags ++
            [.puts breaks] ++ (le32 x).map .getc ++ [.puts "SE"] ++
            announce env r0 r1 atags ++ [.puts breaks] ++ tail := by
  have h2 := kernel_main_accept env r0 r1 atags ss s payload extra mem hss hs hok hp
  have hb := boot_counts env r0 r1 atags s (stage mem 0 payload)
  have ha := announce_counts env r0 r1 atags
  have hr := rejections_counts env r0 r1 atags ss
  refine ⟨?_, ?_, ?_⟩
  · rw [h2]
    simp only [Run.after, negotiation, List.count_append, count_kprintf_getc, hb.2.2.2.1,
      ha.2.2.2.1, hr.2.2.1]
    simp [List.count_cons, hello]
  · rw [h2]
    simp only [Run.after, negotiation, List.count_append, count_uart_init_getc, hr.2.2.2.1,
      boot_count_uart_init]
    simp [List.count_cons, announce]
  · intro before x later hsplit
    subst hsplit
    have hx := hss x (by simp)
    have hbefore : ∀ y ∈ before, y < 2 ^ 32 ∧ (0x8000 + y) % 2 ^ 32 > LOADER_ADDR :=
      fun y hy => hss y (by simp [hy])
    have hinput : declare (before ++ x :: later) ++ (le32 s ++ (payload ++ extra)) =
        declare before ++ (le32 x ++ (declare later ++ (le32 s ++ (payload ++ extra)))) := by
      rw [declare_append]
      simp only [declare, List.append_assoc]
    obtain ⟨tail, ht⟩ := again_starts env r0 r1 atags
      (declare later ++ (le32 s ++ (payload ++ extra))) mem
    refine ⟨tail, ?_⟩
    rw [hinput, kernel_main_rejects env r0 r1 atags before _ mem hbefore,
      again_reject env r0 r1 atags x _ mem hx.1 hx.2]
    simp only [Run.after, ht, negotiation, List.append_assoc, List.cons_append, List.nil_append]

/-- C10 (amended), instance: two rejected declarations, then the size 2. -/
theorem C10_rejection_resumes_at_banner_witness :
    ((∀ x ∈ [0x2000000, 0xFFFF0000], x < 2 ^ 32 ∧ (0x8000 + x) % 2 ^ 32 > LOADER_ADDR) ∧
      2 < 2 ^ 32 ∧ (0x8000 + 2) % 2 ^ 32 ≤ LOADER_ADDR ∧ ([0xAA, 0xBB] : List Byte).length = 2) ∧
    (kernel_main env0 1 2 3 (declare [0x2000000, 0xFFFF0000] ++ (le32 2 ++ ([0xAA, 0xBB] ++ [])))
      mem0).trace.count (.kprintf hello []) = 2 + 1 :=
  ⟨by decide, (C10_rejection_resumes_at_banner env0 1 2 3 [0x2000000, 0xFFFF0000] 2 [0xAA, 0xBB] []
    mem0 (by decide) (by decide) (by decide) rfl).1⟩

/-! ## C11: what is written to the channel -/

/-- Every run of the loop body either blocks or ends with the boot stage; whatever
holds of the banner block, of the reads and of the three wire codes holds of every
event before the boot stage. -/
theorem again_shape_of (env : Env) (r0 r1 atags : Nat) (P : Event → Prop)
    (hann : ∀ e ∈ announce env r0 r1 atags, P e) (hbrk : P (Event.puts breaks))
    (hse : P (Event.puts "SE")) (hok : P (Event.puts "OK")) (hget : ∀ b, P (Event.getc b)) :
    ∀ (n : Nat) (inp : List Byte) (mem : Mem), inp.length ≤ n →
      ((∀ e ∈ (again env r0 r1 atags inp mem).trace, P e) ∧
        (again env r0 r1 atags inp mem).outcome = .blocked) ∨
      ∃ (A : List Event) (s : Nat) (m : Mem), (∀ e ∈ A, P e) ∧
        again env r0 r1 atags inp mem = (boot env r0 r1 atags s m).after A := by
  have hshort : ∀ (inp : List Byte),
      ∀ e ∈ announce env r0 r1 atags ++ Event.puts breaks :: inp.map Event.getc, P e := by
    intro inp e he
    simp only [List.mem_append, List.mem_cons, List.mem_map] at he
    rcases he with he | he | ⟨b, _, he⟩
    · exact hann e he
    · rw [he]; exact hbrk
    · rw [← he]; exact hget b
  have hpre : ∀ (b0 b1 b2 b3 : Byte) (code : String), P (Event.puts code) →
      ∀ e ∈ announce env r0 r1 atags ++
        [Event.puts breaks, Event.getc b0, Event.getc b1, Event.getc b2, Event.getc b3]
        ++ [Event.puts code], P e := by
    intro b0 b1 b2 b3 code hcode e he
    simp only [List.mem_append, List.mem_cons, List.mem_singleton, List.not_mem_nil, or_false]
      at he
    rcases he with (he | he | he | he | he | he) | he
    · exact hann e he
    · rw [he]; exact hbrk
    · rw [he]; exact hget b0
    · rw [he]; exact hget b1
    · rw [he]; exact hget b2
    · rw [he]; exact hget b3
    · rw [he]; exact hcode
  have hrecv : ∀ (size : Nat) (rest : List Byte) (mem : Mem),
      ∀ e ∈ (receive size rest 0 mem).1, P e := by
    intro size rest mem e he
    have := receive_events size rest 0 mem e he
    cases e <;> simp [Event.isGetc] at this
    exact hget _
  intro n
  induction n with
  | zero =>
    intro inp mem hlen
    have : inp = [] := List.length_eq_zero.mp (Nat.le_zero.mp hlen)
    subst this
    exact Or.inl ⟨by simpa [again] using hshort [], by simp [again]⟩
  | succ n ih =>
    intro inp mem hlen
    match inp, hlen with
    | [], _ => exact Or.inl ⟨by simpa [again] using hshort [], by simp [again]⟩
    | [a], _ => exact Or.inl ⟨by simpa [again] using hshort [a], by simp [again]⟩
    | [a, b], _ => exact Or.inl ⟨by simpa [again] using hshort [a, b], by simp [again]⟩
    | [a, b, c], _ => exact Or.inl ⟨by simpa [again] using hshort [a, b, c], by simp [again]⟩
    | b0 :: b1 :: b2 :: b3 :: rest, hlen =>
      rw [again_step]
      by_cases h : (0x8000 + readSize b0 b1 b2 b3) % 2 ^ 32 > LOADER_ADDR
      · rw [if_pos h]
        rcases ih rest mem (by simp only [List.length_cons] at hlen; omega) with hl | hr
        · refine Or.inl ⟨?_, ?_⟩
          · intro e he
            rcases List.mem_append.mp he with he | he
            · exact hpre b0 b1 b2 b3 "SE" hse e he
            · exact hl.1 e he
          · rw [Run.after]; exact hl.2
        · obtain ⟨A, s, m, hA, hrun⟩ := hr
          refine Or.inr ⟨(announce env r0 r1 atags ++
            [Event.puts breaks, Event.getc b0, Event.getc b1, Event.getc b2, Event.getc b3]
            ++ [Event.puts "SE"]) ++ A, s, m, ?_, ?_⟩
          · intro e he
            rcases List.mem_append.mp he with he | he
            · exact hpre b0 b1 b2 b3 "SE" hse e he
            · exact hA e he
          · rw [hrun, Run.after_after]
      · rw [if_neg h]
        by_cases hr : (receive (readSize b0 b1 b2 b3) rest 0 mem).2.2 = true
        · rw [if_pos hr]
          refine Or.inr ⟨announce env r0 r1 atags ++
            [Event.puts breaks, Event.getc b0, Event.getc b1, Event.getc b2, Event.getc b3]
            ++ [Event.puts "OK"] ++ (receive (readSize b0 b1 b2 b3) rest 0 mem).1,
            readSize b0 b1 b2 b3, (receive (readSize b0 b1 b2 b3) rest 0 mem).2.1, ?_, rfl⟩
          intro e he
          rcases List.mem_append.mp he with he | he
          · exact hpre b0 b1 b2 b3 "OK" hok e he
          · exact hrecv _ _ _ e he
        · rw [if_neg hr]
          refine Or.inl ⟨?_, rfl⟩
          intro e he
          rcases List.mem_append.mp he with he | he
          · exact hpre b0 b1 b2 b3 "OK" hok e he
          · exact hrecv _ _ _ e he

/-- The writes to the channel made by the boot stage. -/
theorem boot_puts (env : Env) (r0 r1 atags size : Nat) (mem : Mem) :
    ∃ msg, (msg = "decompressed OK...\r\n" ∨ msg = "decompressed failed...\r\n") ∧
      ((boot env r0 r1 atags size mem).trace.filter Event.isPuts =
          [Event.puts msg, Event.puts "booting..."] ∨
        (boot env r0 r1 atags size mem).trace.filter Event.isPuts =
          [Event.puts msg, Event.puts "booting...", Event.puts halting]) := by
  rw [boot_trace]
  by_cases h : env.fn (env.uncompress mem 0x8000 MAX_SIZE (0x8000 + MAX_SIZE) size).2.2 r0 r1 atags
      = true <;>
  by_cases h2 : (env.uncompress mem 0x8000 MAX_SIZE (0x8000 + MAX_SIZE) size).1 = Z_OK <;>
  simp [h, h2, List.filter_cons, Event.isPuts]

/-- C11 (as stated, refuted): in the run on the declared size 2 and its payload, the
loader writes `"decompressed failed...\r\n"`, `"booting..."` and the halt banner to
the channel with `UART::puts` after the payload has been received. -/
theorem C11_status_messages_on_channel :
    (kernel_main env0 1 2 3 (le32 2 ++ [0xAA, 0xBB]) mem0).trace.filter Event.isPuts =
      [ .puts "\x03\x03\x03", .puts "OK", .puts "decompressed failed...\r\n", .puts "booting...",
        .puts "\r\n*** system halting ***" ] := by
  decide

/-- C11 (amended): every run splits into the part up to the end of the payload and
the part after it.  In the first part the only strings written with `UART::puts`
are the break sequence, `"SE"` and `"OK"`.  The second part holds no read; it is
empty when the run blocks, and otherwise its writes to the channel are, in this
order, `"decompressed OK...\r\n"` or `"decompressed failed...\r\n"`, then
`"booting..."`, then the halt banner when the image returns. -/
theorem C11_channel_writes (env : Env) (r0 r1 atags : Nat) (input : List Byte) (mem : Mem) :
    ∃ (A B : List Event),
      (kernel_main env r0 r1 atags input mem).trace = A ++ B ∧
      (∀ s, Event.puts s ∈ A → s = breaks ∨ s = "SE" ∨ s = "OK") ∧
      B.countP Event.isGetc = 0 ∧
      (B = [] ∨
        ∃ msg, (msg = "decompressed OK...\r\n" ∨ msg = "decompressed failed...\r\n") ∧
          (B.filter Event.isPuts = [.puts msg, .puts "booting..."] ∨
            B.filter Event.isPuts = [.puts msg, .puts "booting...", .puts halting])) := by
  have hann : ∀ e ∈ announce env r0 r1 atags,
      ∀ s, e = Event.puts s → s = breaks ∨ s = "SE" ∨ s = "OK" := by
    intro e he s hs
    subst hs
    simp [announce] at he
  have hsh := again_shape_of env r0 r1 atags
    (fun e => ∀ s, e = Event.puts s → s = breaks ∨ s = "SE" ∨ s = "OK") hann
    (fun s hs => Or.inl (by injection hs with h; exact h.symm))
    (fun s hs => Or.inr (Or.inl (by injection hs with h; exact h.symm)))
    (fun s hs => Or.inr (Or.inr (by injection hs with h; exact h.symm)))
    (fun b s hs => by cases hs)
    input.length input mem (Nat.le_refl _)
  rcases hsh with hl | ⟨A, size, m, hA, hrun⟩
  · refine ⟨(kernel_main env r0 r1 atags input mem).trace, [], by simp, ?_, rfl, Or.inl rfl⟩
    intro s hs
    simp only [kernel_main, Run.after, List.mem_append, List.mem_singleton] at hs
    rcases hs with hs | hs
    · cases hs
    · exact hl.1 _ hs s rfl
  · refine ⟨[Event.uart_init] ++ A, (boot env r0 r1 atags size m).trace, ?_, ?_, ?_, Or.inr ?_⟩
    · rw [kernel_main, hrun, Run.after_after]; rfl
    · intro s hs
      simp only [List.mem_append, List.mem_singleton] at hs
      rcases hs with hs | hs
      · cases hs
      · exact hA _ hs s rfl
    · exact (boot_counts env r0 r1 atags size m).2.2.2.2.1
    · exact boot_puts env r0 r1 atags size m

/-! ## C12: board identification -/

/-- The inner loop of `find` ends at the token's terminator exactly when the token
starts the string. -/
theorem matchToken_iff (p : List Char) : ∀ q : List Char,
    matchToken p q = true ↔ ∃ r, p = q ++ r := by
  induction p with
  | nil =>
    intro q
    cases q with
    | nil => simp [matchToken]
    | cons d q => simp [matchToken]
  | cons c p ih =>
    intro q
    cases q with
    | nil => simp [matchToken]
    | cons d q =>
      by_cases h : c = d
      · subst h
        simp [matchToken, ih q]
      · simp [matchToken, h]

/-- When `find` returns `NULL`, a non-empty token occurs nowhere in the string. -/
theorem find_none (t : List Char) (ht : t ≠ []) (s : List Char) :
    find s t = none ↔ ¬ occurs t s := by
  induction s with
  | nil =>
    simp only [find, occurs, true_iff]
    rintro ⟨l, r, h⟩
    have := congrArg List.length h
    simp only [List.length_nil, List.length_append] at this
    have : t.length = 0 := by omega
    exact ht (List.length_eq_zero.mp this)
  | cons c s ih =>
    by_cases hm : matchToken (c :: s) t = true
    · simp only [find, hm, if_true, false_iff, not_not, reduceCtorEq]
      obtain ⟨r, hr⟩ := (matchToken_iff (c :: s) t).mp hm
      exact ⟨[], r, by simpa using hr⟩
    · simp only [find, hm, if_false, Bool.false_eq_true, ih]
      constructor
      · rintro hno ⟨l, r, h⟩
        cases l with
        | nil =>
          exact hm ((matchToken_iff (c :: s) t).mpr ⟨r, by simpa using h⟩)
        | cons x l =>
          simp only [List.cons_append, List.cons.injEq] at h
          exact hno ⟨l, r, h.2⟩
      · rintro hno ⟨l, r, h⟩
        exact hno ⟨c :: l, r, by simp [h]⟩

/-- When `find` returns a pointer, it designates the leftmost occurrence of a
non-empty token. -/
theorem find_some (t : List Char) (s : List Char) :
    ∀ res, find s t = some res →
      ∃ l r, s = l ++ res ∧ res = t ++ r ∧ res ≠ [] ∧
        ∀ l' r', t ≠ [] → s = l' ++ t ++ r' → l.length ≤ l'.length := by
  induction s with
  | nil => intro res h; simp [find] at h
  | cons c s ih =>
    intro res h
    by_cases hm : matchToken (c :: s) t = true
    · simp only [find, hm, if_true, Option.some.injEq] at h
      obtain ⟨r, hr⟩ := (matchToken_iff (c :: s) t).mp hm
      subst h
      exact ⟨[], r, rfl, hr, by simp, fun _ _ _ _ => Nat.zero_le _⟩
    · simp only [find, hm, if_false, Bool.false_eq_true] at h
      obtain ⟨l, r, h1, h2, h3, h4⟩ := ih res h
      refine ⟨c :: l, r, by simp [h1], h2, h3, ?_⟩
      intro l' r' ht h'
      cases l' with
      | nil =>
        exact absurd ((matchToken_iff (c :: s) t).mpr ⟨r', by simpa using h'⟩) hm
      | cons x l' =>
        simp only [List.cons_append, List.cons.injEq] at h'
        have := h4 l' r' ht h'.2
        simp only [List.length_cons]
        omega

/-- The test `if (find(cmdline, token))` for a non-empty token. -/
theorem find_isSome (t : List Char) (ht : t ≠ []) (s : List Char) :
    (find s t).isSome = true ↔ occurs t s := by
  rw [← not_iff_not, ← find_none t ht s]
  cases find s t <;> simp

/-- C12: for every command line `c`, the variant selected at the head of
`kernel_main` is `RPI2` if `c` contains `"bcm2709.disk_led_gpio=47"`; otherwise
`RPIplus` if `c` contains `"bcm2708.disk_led_gpio=47"`; otherwise the default `RPI`.
The model name of that variant is the one every run reports in its
`"Detected '%s'\n"` line. -/
theorem C12_board_identification (c : List Char) :
    (occurs "bcm2709.disk_led_gpio=47".toList c → arch_info c = .RPI2) ∧
    (¬ occurs "bcm2709.disk_led_gpio=47".toList c → occurs "bcm2708.disk_led_gpio=47".toList c →
      arch_info c = .RPIplus) ∧
    (¬ occurs "bcm2709.disk_led_gpio=47".toList c →
      ¬ occurs "bcm2708.disk_led_gpio=47".toList c → arch_info c = .RPI) ∧
    ∀ (env : Env) (r0 r1 atags : Nat) (input : List Byte) (mem : Mem), env.cmdline = c →
      Event.kprintf "Detected '%s'\n" [.str (arch_infos (arch_info c)).model] ∈
        (kernel_main env r0 r1 atags input mem).trace := by
  have h9 := find_isSome "bcm2709.disk_led_gpio=47".toList (by decide) c
  have h8 := find_isSome "bcm2708.disk_led_gpio=47".toList (by decide) c
  refine ⟨?_, ?_, ?_, ?_⟩
  · intro h
    simp only [arch_info, h9.mpr h, if_true]
  · intro hn h
    have : (find c "bcm2709.disk_led_gpio=47".toList).isSome = false := by
      rw [Bool.eq_false_iff]; exact fun hh => hn (h9.mp hh)
    simp only [arch_info, h8.mpr h, this, if_true, Bool.false_eq_true, if_false]
  · intro hn9 hn8
    have e9 : (find c "bcm2709.disk_led_gpio=47".toList).isSome = false := by
      rw [Bool.eq_false_iff]; exact fun hh => hn9 (h9.mp hh)
    have e8 : (find c "bcm2708.disk_led_gpio=47".toList).isSome = false := by
      rw [Bool.eq_false_iff]; exact fun hh => hn8 (h8.mp hh)
    simp only [arch_info, e9, e8, Bool.false_eq_true, if_false]
  · intro env r0 r1 atags input mem hc
    obtain ⟨tail, ht⟩ := again_starts env r0 r1 atags input mem
    simp only [kernel_main, Run.after, ht, announce, hc]
    simp

/-! ## C13: the checksum -/

/-- Replacing the checksum function changes nothing before the boot stage, and the
boot stage is entered with the same size and the same memory. -/
theorem again_crc32 (env : Env) (crc : Nat → Mem → Nat → Nat → Nat) (r0 r1 atags : Nat) :
    ∀ (n : Nat) (inp : List Byte) (mem : Mem), inp.length ≤ n →
      (again { env with crc32 := crc } r0 r1 atags inp mem = again env r0 r1 atags inp mem ∧
        (again env r0 r1 atags inp mem).outcome = .blocked) ∨
      ∃ (A : List Event) (s : Nat) (m : Mem),
        again { env with crc32 := crc } r0 r1 atags inp mem =
          (boot { env with crc32 := crc } r0 r1 atags s m).after A ∧
        again env r0 r1 atags inp mem = (boot env r0 r1 atags s m).after A := by
  have hann : announce { env with crc32 := crc } r0 r1 atags = announce env r0 r1 atags := rfl
  intro n
  induction n with
  | zero =>
    intro inp mem hlen
    have : inp = [] := List.length_eq_zero.mp (Nat.le_zero.mp hlen)
    subst this
    exact Or.inl ⟨by simp [again, hann], by simp [again]⟩
  | succ n ih =>
    intro inp mem hlen
    match inp, hlen with
    | [], _ => exact Or.inl ⟨by simp [again, hann], by simp [again]⟩
    | [a], _ => exact Or.inl ⟨by simp [again, hann], by simp [again]⟩
    | [a, b], _ => exact Or.inl ⟨by simp [again, hann], by simp [again]⟩
    | [a, b, c], _ => exact Or.inl ⟨by simp [again, hann], by simp [again]⟩
    | b0 :: b1 :: b2 :: b3 :: rest, hlen =>
      rw [again_step, again_step, hann]
      by_cases h : (0x8000 + readSize b0 b1 b2 b3) % 2 ^ 32 > LOADER_ADDR
      · rw [if_pos h, if_pos h]
        rcases ih rest mem (by simp only [List.length_cons] at hlen; omega) with hl | hr
        · refine Or.inl ⟨by rw [hl.1], ?_⟩
          rw [Run.after]; exact hl.2
        · obtain ⟨A, s, m, h1, h2⟩ := hr
          refine Or.inr ⟨(announce env r0 r1 atags ++
            [Event.puts breaks, Event.getc b0, Event.getc b1, Event.getc b2, Event.getc b3]
            ++ [Event.puts "SE"]) ++ A, s, m, ?_, ?_⟩
          · rw [h1, Run.after_after]
          · rw [h2, Run.after_after]
      · rw [if_neg h, if_neg h]
        by_cases hr : (receive (readSize b0 b1 b2 b3) rest 0 mem).2.2 = true
        · rw [if_pos hr, if_pos hr]
          exact Or.inr ⟨announce env r0 r1 atags ++
            [Event.puts breaks, Event.getc b0, Event.getc b1, Event.getc b2, Event.getc b3]
            ++ [Event.puts "OK"] ++ (receive (readSize b0 b1 b2 b3) rest 0 mem).1,
            readSize b0 b1 b2 b3, (receive (readSize b0 b1 b2 b3) rest 0 mem).2.1, rfl, rfl⟩
        · rw [if_neg hr, if_neg hr]
          exact Or.inl ⟨rfl, rfl⟩

/-- C13: take two runs of `kernel_main` with the same entry values, channel input,
initial memory, decoder and image, whose `crc32` functions differ.  Their writes
to the channel are the same, their calls of the image are the same, they end the
same way with the same memory, and their traces are either equal or differ in
the argument of the one `"CRC: 0x%08lx\n"` log line only. -/
theorem C13_checksum_has_no_effect (env : Env) (crc : Nat → Mem → Nat → Nat → Nat)
    (r0 r1 atags : Nat) (input : List Byte) (mem : Mem) :
    (kernel_main { env with crc32 := crc } r0 r1 atags input mem).trace.filter Event.isPuts =
      (kernel_main env r0 r1 atags input mem).trace.filter Event.isPuts ∧
    (kernel_main { env with crc32 := crc } r0 r1 atags input mem).trace.filter Event.isCall =
      (kernel_main env r0 r1 atags input mem).trace.filter Event.isCall ∧
    (kernel_main { env with crc32 := crc } r0 r1 atags input mem).outcome =
      (kernel_main env r0 r1 atags input mem).outcome ∧
    (kernel_main { env with crc32 := crc } r0 r1 atags input mem).mem =
      (kernel_main env r0 r1 atags input mem).mem ∧
    ((kernel_main { env with crc32 := crc } r0 r1 atags input mem).trace =
        (kernel_main env r0 r1 atags input mem).trace ∨
      ∃ (A B : List Event) (v v' : Nat),
        (kernel_main env r0 r1 atags input mem).trace =
          A ++ Event.kprintf "CRC: 0x%08lx\n" [.num v] :: B ∧
        (kernel_main { env with crc32 := crc } r0 r1 atags input mem).trace =
          A ++ Event.kprintf "CRC: 0x%08lx\n" [.num v'] :: B) := by
  rcases again_crc32 env crc r0 r1 atags input.length input mem (Nat.le_refl _) with hl | hr
  · have : kernel_main { env with crc32 := crc } r0 r1 atags input mem =
        kernel_main env r0 r1 atags input mem := by
      simp only [kernel_main, hl.1]
    rw [this]
    exact ⟨rfl, rfl, rfl, rfl, Or.inl rfl⟩
  · obtain ⟨A, s, m, h1, h2⟩ := hr
    have k1 : (kernel_main { env with crc32 := crc } r0 r1 atags input mem).trace =
        ([Event.uart_init] ++ A ++
          [ Event.kprintf "decompressing...\r\n" [],
            Event.uncompress 0x8000 MAX_SIZE (0x8000 + MAX_SIZE) s,
            Event.puts (if (env.uncompress m 0x8000 MAX_SIZE (0x8000 + MAX_SIZE) s).1 = Z_OK
              then "decompressed OK...\r\n" else "decompressed failed...\r\n"),
            Event.crc32 0 0x8000 (env.uncompress m 0x8000 MAX_SIZE (0x8000 + MAX_SIZE) s).2.1 ]) ++
          Event.kprintf "CRC: 0x%08lx\n"
            [Arg.num (crc 0 (env.uncompress m 0x8000 MAX_SIZE (0x8000 + MAX_SIZE) s).2.2
              0x8000 (env.uncompress m 0x8000 MAX_SIZE (0x8000 + MAX_SIZE) s).2.1)] ::
          ([Event.puts "booting...", Event.call 0x8000 r0 r1 atags] ++
            (if env.fn (env.uncompress m 0x8000 MAX_SIZE (0x8000 + MAX_SIZE) s).2.2 r0 r1 atags
              then [Event.puts halting] else [])) := by
      rw [kernel_main, h1, Run.after_after]
      simp only [Run.after, boot_trace, List.append_assoc, List.cons_append, List.nil_append]
    have k2 : (kernel_main env r0 r1 atags input mem).trace =
        ([Event.uart_init] ++ A ++
          [ Event.kprintf "decompressing...\r\n" [],
            Event.uncompress 0x8000 MAX_SIZE (0x8000 + MAX_SIZE) s,
            Event.puts (if (env.uncompress m 0x8000 MAX_SIZE (0x8000 + MAX_SIZE) s).1 = Z_OK
              then "decompressed OK...\r\n" else "decompressed failed...\r\n"),
            Event.crc32 0 0x8000 (env.uncompress m 0x8000 MAX_SIZE (0x8000 + MAX_SIZE) s).2.1 ]) ++
          Event.kprintf "CRC: 0x%08lx\n"
            [Arg.num (env.crc32 0 (env.uncompress m 0x8000 MAX_SIZE (0x8000 + MAX_SIZE) s).2.2
              0x8000 (env.uncompress m 0x8000 MAX_SIZE (0x8000 + MAX_SIZE) s).2.1)] ::
          ([Event.puts "booting...", Event.call 0x8000 r0 r1 atags] ++
            (if env.fn (env.uncompress m 0x8000 MAX_SIZE (0x8000 + MAX_SIZE) s).2.2 r0 r1 atags
              then [Event.puts halting] else [])) := by
      rw [kernel_main, h2, Run.after_after]
      simp only [Run.after, boot_trace, List.append_assoc, List.cons_append, List.nil_append]
    refine ⟨?_, ?_, ?_, ?_, Or.inr ⟨_, _, _, _, k2, k1⟩⟩
    · rw [k1, k2]
      simp [List.filter_cons, Event.isPuts]
    · rw [k1, k2]
      simp [List.filter_cons, Event.isCall]
    · rw [kernel_main, kernel_main, h1, h2]
      simp only [Run.after, boot_outcome]
    · rw [kernel_main, kernel_main, h1, h2]
      simp only [Run.after, boot_mem]

/-! ## C14: `find` on pointers -/

/-- The C string after the first character of a C string. -/
theorem CString.tail {mem : Nat → Char} {a : Nat} {c : Char} {s : List Char}
    (h : CString mem a (c :: s)) : mem a = c ∧ c ≠ NUL ∧ CString mem (a + 1) s := by
  obtain ⟨h1, h2, h3⟩ := h
  refine ⟨by simpa using h1 0 (by simp), h2 c (by simp), ?_, fun x hx => h2 x (by simp [hx]), ?_⟩
  · intro i hi
    have := h1 (i + 1) (by simp only [List.length_cons]; omega)
    simp only [List.getElem_cons_succ] at this
    rw [← this]
    congr 1
    omega
  · rw [← h3]
    congr 1
    simp only [List.length_cons]
    omega

/-- The character at the address of an empty C string is NUL. -/
theorem CString.nil_head {mem : Nat → Char} {a : Nat} (h : CString mem a []) : mem a = NUL := by
  simpa using h.2.2

/-- The inner loop on C strings: with enough fuel it ends, it stops at the token's
terminator exactly when the token starts the string, and it reads only characters
of the two strings and their terminators. -/
theorem find_scan_spec (mem : Nat → Char) (ps : List Char) :
    ∀ (qs : List Char) (p q fuel : Nat), CString mem p ps → CString mem q qs →
      ps.length + 1 ≤ fuel →
      ∃ q' rd, find_scan mem fuel p q = some (q', rd) ∧
        (mem q' = NUL ↔ matchToken ps qs = true) ∧ q ≤ q' ∧ q' ≤ q + qs.length ∧
        ∀ x ∈ rd, (p ≤ x ∧ x ≤ p + ps.length) ∨ (q ≤ x ∧ x ≤ q + qs.length) := by
  induction ps with
  | nil =>
    intro qs p q fuel hp hq hf
    obtain ⟨f, rfl⟩ : ∃ f, fuel = f + 1 := ⟨fuel - 1, by simp only [List.length_nil] at hf; omega⟩
    refine ⟨q, [p], by simp [find_scan, hp.nil_head], ?_, Nat.le_refl _, Nat.le_add_right _ _, ?_⟩
    · cases qs with
      | nil => simp [matchToken, hq.nil_head]
      | cons d qs =>
        obtain ⟨h1, h2, _⟩ := hq.tail
        simp [matchToken, h1, h2]
    · intro x hx
      simp only [List.mem_singleton] at hx
      exact Or.inl ⟨by omega, by omega⟩
  | cons c ps ih =>
    intro qs p q fuel hp hq hf
    obtain ⟨f, rfl⟩ : ∃ f, fuel = f + 1 := ⟨fuel - 1, by omega⟩
    obtain ⟨hp1, hp2, hp3⟩ := hp.tail
    have hpn : ¬ mem p = NUL := by rw [hp1]; exact hp2
    cases qs with
    | nil =>
      have hq0 := hq.nil_head
      have hne : ¬ mem p = mem q := by rw [hq0]; exact hpn
      refine ⟨q, [p, q], by simp [find_scan, hpn, hne], by simp [matchToken, hq0],
        Nat.le_refl _, Nat.le_add_right _ _, ?_⟩
      intro x hx
      simp only [List.mem_cons, List.mem_singleton, List.not_mem_nil, or_false] at hx
      rcases hx with hx | hx
      · exact Or.inl ⟨by omega, by omega⟩
      · exact Or.inr ⟨by omega, by omega⟩
    | cons d qs =>
      obtain ⟨hq1, hq2, hq3⟩ := hq.tail
      by_cases hcd : c = d
      · subst hcd
        have heq : mem p = mem q := by rw [hp1, hq1]
        obtain ⟨q', rd, h1, h2, h3, h4, h5⟩ := ih qs (p + 1) (q + 1) f hp3 hq3
          (by simp only [List.length_cons] at hf; omega)
        have hqn : ¬ mem q = NUL := by rw [hq1]; exact hq2
        refine ⟨q', p :: q :: rd, by simp [find_scan, hqn, heq, h1], ?_, by omega,
          by simp only [List.length_cons]; omega, ?_⟩
        · simp [matchToken, h2]
        · intro x hx
          simp only [List.mem_cons] at hx
          simp only [List.length_cons]
          rcases hx with hx | hx | hx
          · exact Or.inl ⟨by omega, by omega⟩
          · exact Or.inr ⟨by omega, by omega⟩
          · rcases h5 x hx with h | h
            · exact Or.inl ⟨by omega, by omega⟩
            · exact Or.inr ⟨by omega, by omega⟩
      · have hne : ¬ mem p = mem q := by rw [hp1, hq1]; exact hcd
        refine ⟨q, [p, q], by simp [find_scan, hpn, hne], ?_, Nat.le_refl _,
          Nat.le_add_right _ _, ?_⟩
        · simp [matchToken, hcd, hq1, hq2]
        · intro x hx
          simp only [List.mem_cons, List.mem_singleton, List.not_mem_nil, or_false] at hx
          rcases hx with hx | hx
          · exact Or.inl ⟨by omega, by omega⟩
          · exact Or.inr ⟨by omega, by omega⟩

/-- A pointer returned by `find` designates a suffix of the string. -/
theorem find_length_le (t : List Char) (s res : List Char) (h : find s t = some res) :
    res.length ≤ s.length := by
  obtain ⟨l, r, h1, _⟩ := find_some t s res h
  rw [h1, List.length_append]
  omega

/-- The function `find` on C strings in memory: with fuel above the length of the
string it returns, the pointer it returns is the one the list model designates,
and every address it reads lies within one of the two strings, terminator
included. -/
theorem find_ptr_spec (mem : Nat → Char) (t : List Char) (s : List Char) :
    ∀ (a b fuel : Nat), CString mem a s → CString mem b t → s.length + 1 ≤ fuel →
      ∃ rd, find_ptr mem fuel a b =
          some ((find s t).map (fun res => a + (s.length - res.length)), rd) ∧
        ∀ x ∈ rd, (a ≤ x ∧ x ≤ a + s.length) ∨ (b ≤ x ∧ x ≤ b + t.length) := by
  induction s with
  | nil =>
    intro a b fuel ha hb hf
    obtain ⟨f, rfl⟩ : ∃ f, fuel = f + 1 := ⟨fuel - 1, by simp only [List.length_nil] at hf; omega⟩
    refine ⟨[a], by simp [find_ptr, ha.nil_head, find], ?_⟩
    intro x hx
    simp only [List.mem_singleton] at hx
    exact Or.inl ⟨by omega, by omega⟩
  | cons c s ih =>
    intro a b fuel ha hb hf
    obtain ⟨f, rfl⟩ : ∃ f, fuel = f + 1 := ⟨fuel - 1, by omega⟩
    obtain ⟨ha1, ha2, ha3⟩ := ha.tail
    have han : ¬ mem a = NUL := by rw [ha1]; exact ha2
    obtain ⟨q', rd, h1, h2, h3, h4, h5⟩ := find_scan_spec mem (c :: s) t a b (f + 1) ha hb hf
    have hrd : ∀ x ∈ a :: (rd ++ [q']),
        (a ≤ x ∧ x ≤ a + (c :: s).length) ∨ (b ≤ x ∧ x ≤ b + t.length) := by
      intro x hx
      simp only [List.mem_cons, List.mem_append, List.mem_singleton, List.not_mem_nil,
        or_false] at hx
      rcases hx with hx | hx | hx
      · exact Or.inl ⟨by omega, by omega⟩
      · exact h5 x hx
      · exact Or.inr ⟨by omega, by omega⟩
    by_cases hm : matchToken (c :: s) t = true
    · have hq : mem q' = NUL := h2.mpr hm
      refine ⟨a :: (rd ++ [q']), ?_, hrd⟩
      simp [find_ptr, han, h1, hq, find, hm]
    · have hq : ¬ mem q' = NUL := fun h => hm (h2.mp h)
      obtain ⟨rd2, g1, g2⟩ := ih (a + 1) b f ha3 hb
        (by simp only [List.length_cons] at hf; omega)
      refine ⟨a :: (rd ++ [q']) ++ rd2, ?_, ?_⟩
      · simp only [find_ptr, han, if_false, h1, hq, g1, Option.map_some', find, hm,
          Bool.false_eq_true]
        congr 2
        cases hfind : find s t with
        | none => rfl
        | some res =>
          have := find_length_le t s res hfind
          simp only [Option.map_some', List.length_cons, Option.some.injEq]
          omega
      · intro x hx
        rcases List.mem_append.mp hx with hx | hx
        · exact hrd x hx
        · simp only [List.length_cons]
          rcases g2 x hx with h | h
          · exact Or.inl ⟨by omega, by omega⟩
          · exact Or.inr h

/-- The memory `cmem0` holds the C string `"xab"` at address 0. -/
theorem cmem0_str : CString cmem0 0 "xab".toList := by
  unfold CString
  decide

/-- The memory `cmem0` holds the C string `"ab"` at address 8. -/
theorem cmem0_token : CString cmem0 8 "ab".toList := by
  unfold CString
  decide

/-- C14: for every string `str` and every non-empty `token`, `find` returns `NULL`
if and only if `token` does not occur in `str` as a contiguous run of equal
characters; otherwise the pointer it returns designates the leftmost occurrence.
On NUL-terminated strings in memory the search ends (fuel above the length of `str`
suffices), returns that pointer, and reads no address beyond either terminator. -/
theorem C14_find_is_substring_search (str token : List Char) (htoken : token ≠ []) :
    (find str token = none ↔ ¬ occurs token str) ∧
    (∀ res, find str token = some res →
      ∃ l r, str = l ++ res ∧ res = token ++ r ∧
        ∀ l' r', str = l' ++ token ++ r' → l.length ≤ l'.length) ∧
    ∀ (mem : Nat → Char) (a b fuel : Nat), CString mem a str → CString mem b token →
      str.length + 1 ≤ fuel →
      ∃ rd, find_ptr mem fuel a b =
          some ((find str token).map (fun res => a + (str.length - res.length)), rd) ∧
        ∀ x ∈ rd, (a ≤ x ∧ x ≤ a + str.length) ∨ (b ≤ x ∧ x ≤ b + token.length) := by
  refine ⟨find_none token htoken str, ?_, ?_⟩
  · intro res h
    obtain ⟨l, r, h1, h2, _, h4⟩ := find_some token str res h
    exact ⟨l, r, h1, h2, fun l' r' h' => h4 l' r' htoken h'⟩
  · intro mem a b fuel ha hb hf
    exact find_ptr_spec mem token str a b fuel ha hb hf

/-- C14, instance: the token `"ab"` in the string `"xab"`, held in `cmem0`; the
pointer returned is address 1. -/
theorem C14_find_is_substring_search_witness :
    "ab".toList ≠ [] ∧ find "xab".toList "ab".toList = some "ab".toList ∧
    ∃ rd, find_ptr cmem0 4 0 8 = some (some 1, rd) ∧
      ∀ x ∈ rd, (0 ≤ x ∧ x ≤ 0 + 3) ∨ (8 ≤ x ∧ x ≤ 8 + 2) :=
  ⟨by decide, by decide,
    (C14_find_is_substring_search "xab".toList "ab".toList (by decide)).2.2 cmem0 0 8 4
      cmem0_str cmem0_token (by decide)⟩

/-! ## C15: the acceptance predicate -/

/-- C15: for every 32-bit declared size `s`, in any attempt, the loader answers
`"OK"` if and only if `(0x8000 + s) mod 2^32 ≤ LOADER_ADDR`, and `"SE"` otherwise.
The accepted sizes are exactly those with `s ≤ 0x1FF8000` and, through the 32-bit
wrap-around of the sum, those with `s ≥ 0xFFFF8000`. -/
theorem C15_acceptance_predicate (s : Nat) (hs : s < 2 ^ 32) :
    ((0x8000 + s) % 2 ^ 32 ≤ LOADER_ADDR ↔ s ≤ 0x1FF8000 ∨ 0xFFFF8000 ≤ s) ∧
    LOADER_ADDR = 0x2000000 ∧
    ∀ (env : Env) (r0 r1 atags : Nat) (ss : List Nat) (rest : List Byte) (mem : Mem),
      (∀ x ∈ ss, x < 2 ^ 32 ∧ (0x8000 + x) % 2 ^ 32 > LOADER_ADDR) →
      ∃ tail, (kernel_main env r0 r1 atags (declare ss ++ (le32 s ++ rest)) mem).trace =
        [.uart_init] ++ rejections env r0 r1 atags ss ++ announce env r0 r1 atags ++
          [.puts breaks] ++ (le32 s).map .getc ++
          [.puts (if (0x8000 + s) % 2 ^ 32 ≤ LOADER_ADDR then "OK" else "SE")] ++ tail := by
  refine ⟨?_, rfl, ?_⟩
  · simp only [LOADER_ADDR]
    omega
  · intro env r0 r1 atags ss rest mem hss
    obtain ⟨b0, b1, b2, b3, hle, hrd⟩ := le32_eq s
    rw [Nat.mod_eq_of_lt hs] at hrd
    obtain ⟨tail, ht⟩ := again_head env r0 r1 atags b0 b1 b2 b3 rest mem
    refine ⟨tail, ?_⟩
    rw [kernel_main_rejects env r0 r1 atags ss _ mem hss, hle]
    simp only [List.cons_append, List.nil_append] at ht ⊢
    rw [hrd] at ht
    simp only [Run.after, ht, List.map_cons, List.map_nil, List.append_assoc, List.cons_append,
      List.nil_append]
    by_cases h : (0x8000 + s) % 2 ^ 32 > LOADER_ADDR
    · rw [if_pos h, if_neg (by omega)]
    · rw [if_neg h, if_pos (by omega)]

/-- C15, instance: the size `0xFFFF8000` is accepted through the wrap-around. -/
theorem C15_acceptance_predicate_witness :
    0xFFFF8000 < 2 ^ 32 ∧
    ((0x8000 + 0xFFFF8000) % 2 ^ 32 ≤ LOADER_ADDR ↔ 0xFFFF8000 ≤ 0x1FF8000 ∨ 0xFFFF8000 ≤ 0xFFFF8000) :=
  ⟨by decide, (C15_acceptance_predicate 0xFFFF8000 (by decide)).1⟩

/-! ## C16: the memory layout for sizes up to `MAX_SIZE` -/

/-- C16: a declared size `s ≤ MAX_SIZE` is accepted, and the receive loop writes
exactly the addresses `0x208000 ..< 0x208000 + s`: afterwards they hold the payload
in order and every other address holds what it held before.  These addresses lie
in `0x208000 ..< 0x408000`, outside the load target `0x8000 ..< 0x208000`, below
the allocator's arena, which starts at `0x408000`, and below the loader at
`0x2000000`. -/
theorem C16_staging_layout (env : Env) (r0 r1 atags : Nat) (ss : List Nat) (s : Nat)
    (payload extra : List Byte) (mem : Mem)
    (hss : ∀ x ∈ ss, x < 2 ^ 32 ∧ (0x8000 + x) % 2 ^ 32 > LOADER_ADDR)
    (hs : s ≤ MAX_SIZE) (hp : payload.length = s) :
    ∃ m : Mem,
      kernel_main env r0 r1 atags (declare ss ++ (le32 s ++ (payload ++ extra))) mem =
        (boot env r0 r1 atags s m).after
          ([.uart_init] ++ rejections env r0 r1 atags ss ++ announce env r0 r1 atags ++
            [.puts breaks] ++ (le32 s).map .getc ++ [.puts "OK"] ++ payload.map .getc) ∧
      (∀ (j : Nat) (h : j < payload.length), m (0x208000 + j) = payload[j]) ∧
      (∀ a : Nat, a < 0x208000 ∨ 0x208000 + s ≤ a → m a = mem a) ∧
      (∀ a : Nat, 0x208000 ≤ a → a < 0x208000 + s →
        a < 0x408000 ∧ ¬ (0x8000 ≤ a ∧ a < 0x8000 + MAX_SIZE) ∧ a < malloc_base ∧
          a < LOADER_ADDR) ∧
      0x8000 + MAX_SIZE = 0x208000 ∧ malloc_base = 0x408000 ∧ LOADER_ADDR = 0x2000000 := by
  have hs32 : s < 2 ^ 32 := by simp only [MAX_SIZE] at hs; omega
  have hok : (0x8000 + s) % 2 ^ 32 ≤ LOADER_ADDR := by
    simp only [MAX_SIZE] at hs; simp only [LOADER_ADDR]; omega
  have h2 := kernel_main_accept env r0 r1 atags ss s payload extra mem hss hs32 hok hp
  refine ⟨stage mem 0 payload, ?_, ?_, ?_, ?_, rfl, rfl, rfl⟩
  · rw [h2]; simp only [negotiation, List.append_assoc]
  · intro j h
    have := stage_holds mem payload (by omega) j h
    simp only [MAX_SIZE] at this hs
    rwa [Nat.mod_eq_of_lt (by omega)] at this
  · intro a ha
    apply stage_frame
    intro j hj
    simp only [MAX_SIZE] at hs ⊢
    omega
  · intro a h1 h2
    simp only [MAX_SIZE, malloc_base, LOADER_ADDR] at hs ⊢
    omega

/-- C16, instance: the size 2 with payload `AA BB`. -/
theorem C16_staging_layout_witness :
    ((∀ x ∈ ([] : List Nat), x < 2 ^ 32 ∧ (0x8000 + x) % 2 ^ 32 > LOADER_ADDR) ∧ 2 ≤ MAX_SIZE ∧
      ([0xAA, 0xBB] : List Byte).length = 2) ∧
    ∃ m : Mem,
      kernel_main env0 1 2 3 (declare [] ++ (le32 2 ++ ([0xAA, 0xBB] ++ []))) mem0 =
        (boot env0 1 2 3 2 m).after
          ([.uart_init] ++ rejections env0 1 2 3 [] ++ announce env0 1 2 3 ++
            [.puts breaks] ++ (le32 2).map .getc ++ [.puts "OK"] ++
            ([0xAA, 0xBB] : List Byte).map .getc) ∧
      (∀ (j : Nat) (h : j < ([0xAA, 0xBB] : List Byte).length),
        m (0x208000 + j) = ([0xAA, 0xBB] : List Byte)[j]) ∧
      (∀ a : Nat, a < 0x208000 ∨ 0x208000 + 2 ≤ a → m a = mem0 a) :=
  ⟨by decide,
    (C16_staging_layout env0 1 2 3 [] 2 [0xAA, 0xBB] [] mem0 (by decide) (by decide) rfl).imp
      (fun _ h => ⟨h.1, h.2.1, h.2.2.1⟩)⟩

/-! ## C17: what the checksum covers -/

/-- C17: whenever a run reaches the checksum, `crc32` is called with initial value
0 on the `L` octets at `0x8000`, where `L` is the length the decoder, called with
capacity `MAX_SIZE`, leaves in `uncompressedSize`; the value logged is the checksum
of the memory the decoder left.  `L ≤ MAX_SIZE` for a decoder that never reports a
length above its capacity, and `L = MAX_SIZE` when the decoder returns the length
as it received it. -/
theorem C17_checksum_range (env : Env) (r0 r1 atags : Nat) (input : List Byte) (mem : Mem)
    (c p L : Nat)
    (hreach : Event.crc32 c p L ∈ (kernel_main env r0 r1 atags input mem).trace) :
    c = 0 ∧ p = 0x8000 ∧
    ∃ (size : Nat) (m : Mem),
      Event.uncompress 0x8000 MAX_SIZE (0x8000 + MAX_SIZE) size ∈
        (kernel_main env r0 r1 atags input mem).trace ∧
      L = (env.uncompress m 0x8000 MAX_SIZE (0x8000 + MAX_SIZE) size).2.1 ∧
      (kernel_main env r0 r1 atags input mem).mem =
        (env.uncompress m 0x8000 MAX_SIZE (0x8000 + MAX_SIZE) size).2.2 ∧
      Event.kprintf "CRC: 0x%08lx\n"
          [.num (env.crc32 0 (kernel_main env r0 r1 atags input mem).mem 0x8000 L)] ∈
        (kernel_main env r0 r1 atags input mem).trace ∧
      ((∀ (m' : Mem) (d cap src n : Nat), (env.uncompress m' d cap src n).2.1 ≤ cap) →
        L ≤ MAX_SIZE) ∧
      ((env.uncompress m 0x8000 MAX_SIZE (0x8000 + MAX_SIZE) size).2.1 = MAX_SIZE →
        L = MAX_SIZE) ∧
      MAX_SIZE = 0x200000 := by
  have hann : ∀ e ∈ announce env r0 r1 atags, ∀ c p l, e ≠ Event.crc32 c p l := by
    intro e he c p l hc
    subst hc
    simp [announce] at he
  have hsh := again_shape_of env r0 r1 atags (fun e => ∀ c p l, e ≠ Event.crc32 c p l) hann
    (fun _ _ _ h => by cases h) (fun _ _ _ h => by cases h) (fun _ _ _ h => by cases h)
    (fun _ _ _ _ h => by cases h) input.length input mem (Nat.le_refl _)
  simp only [kernel_main, Run.after, List.mem_append, List.mem_singleton] at hreach
  rcases hreach with hreach | hreach
  · cases hreach
  rcases hsh with hl | ⟨A, size, m, hA, hrun⟩
  · exact absurd rfl (hl.1 _ hreach c p L)
  · rw [hrun] at hreach
    simp only [Run.after, List.mem_append] at hreach
    rcases hreach with hreach | hreach
    · exact absurd rfl (hA _ hreach c p L)
    · have hk : (kernel_main env r0 r1 atags input mem).trace =
          [Event.uart_init] ++ (A ++ (boot env r0 r1 atags size m).trace) := by
        rw [kernel_main, hrun]; rfl
      have hm : (kernel_main env r0 r1 atags input mem).mem =
          (env.uncompress m 0x8000 MAX_SIZE (0x8000 + MAX_SIZE) size).2.2 := by
        rw [kernel_main, hrun]; simp only [Run.after, boot_mem]
      rw [boot_trace] at hreach hk
      have hcpl : c = 0 ∧ p = 0x8000 ∧
          L = (env.uncompress m 0x8000 MAX_SIZE (0x8000 + MAX_SIZE) size).2.1 := by
        simp only [List.mem_append, List.mem_cons, List.mem_singleton, List.not_mem_nil,
          or_false, reduceCtorEq, false_or, Event.crc32.injEq] at hreach
        rcases hreach with h | h
        · exact h
        · split at h <;> simp at h
      obtain ⟨hc, hp, hL⟩ := hcpl
      refine ⟨hc, hp, size, m, ?_, hL, hm, ?_, ?_, ?_, rfl⟩
      · rw [hk]; simp
      · rw [hm, hk, hL]; simp
      · intro hcap
        rw [hL]; exact hcap _ _ _ _ _
      · intro h
        rw [hL]; exact h

/-- C17, instance: the decoder of `env0` fails and leaves the length as it is, so
the checksum covers `MAX_SIZE` octets. -/
theorem C17_checksum_range_witness :
    Event.crc32 0 0x8000 MAX_SIZE ∈ (kernel_main env0 1 2 3 (le32 2 ++ [0xAA, 0xBB]) mem0).trace ∧
    ∃ (size : Nat) (m : Mem),
      Event.uncompress 0x8000 MAX_SIZE (0x8000 + MAX_SIZE) size ∈
        (kernel_main env0 1 2 3 (le32 2 ++ [0xAA, 0xBB]) mem0).trace ∧
      MAX_SIZE = (env0.uncompress m 0x8000 MAX_SIZE (0x8000 + MAX_SIZE) size).2.1 :=
  ⟨by decide,
    (C17_checksum_range env0 1 2 3 (le32 2 ++ [0xAA, 0xBB]) mem0 0 0x8000 MAX_SIZE
      (by decide)).2.2.imp (fun _ h => h.imp (fun _ h => ⟨h.1, h.2.1⟩))⟩

/-! ## C18: the bump allocator -/

/-- As long as the static pointer does not wrap, the `malloc` calls return the
back-to-back layout of their sizes. -/
theorem heap_run_bump (cs : List HeapCall) : ∀ b : Nat,
    b + (malloc_sizes cs).sum < 2 ^ 32 → (heap_run b cs).1 = bump b (malloc_sizes cs) := by
  induction cs with
  | nil => intro b _; rfl
  | cons c cs ih =>
    intro b hb
    cases c with
    | malloc n =>
      simp only [malloc_sizes, List.sum_cons] at hb
      have hw : (b + n) % 2 ^ 32 = b + n := Nat.mod_eq_of_lt (by omega)
      simp only [heap_run, malloc, malloc_sizes, bump, hw]
      rw [ih (b + n) (by omega)]
    | free p =>
      simp only [malloc_sizes] at hb
      simp only [heap_run, free, malloc_sizes]
      exact ih b hb

/-- Every block of a back-to-back layout starts at or after the layout's start. -/
theorem le_of_mem_bump (ns : List Nat) : ∀ (b x : Nat), x ∈ bump b ns → b ≤ x := by
  induction ns with
  | nil => intro b x hx; simp [bump] at hx
  | cons n ns ih =>
    intro b x hx
    simp only [bump, List.mem_cons] at hx
    rcases hx with hx | hx
    · omega
    · have := ih (b + n) x hx
      omega

/-- Block `i` of a back-to-back layout starts after the sizes of the blocks before it. -/
theorem bump_getElem? (ns : List Nat) : ∀ (b i : Nat), i < ns.length →
    (bump b ns)[i]? = some (b + (ns.take i).sum) := by
  induction ns with
  | nil => intro b i hi; simp at hi
  | cons n ns ih =>
    intro b i hi
    cases i with
    | zero => simp [bump]
    | succ i =>
      simp only [List.length_cons] at hi
      simp only [bump, List.getElem?_cons_succ, List.take_succ_cons, List.sum_cons]
      rw [ih (b + n) i (by omega)]
      congr 1
      omega

/-- The starts of a back-to-back layout never decrease. -/
theorem bump_sorted (ns : List Nat) : ∀ b : Nat, List.Pairwise (fun x y => x ≤ y) (bump b ns) := by
  induction ns with
  | nil => intro b; simp [bump]
  | cons n ns ih =>
    intro b
    simp only [bump, List.pairwise_cons]
    refine ⟨?_, ih (b + n)⟩
    intro x hx
    have := le_of_mem_bump ns (b + n) x hx
    omega

/-- In a back-to-back layout every block ends before the later blocks start. -/
theorem bump_disjoint (ns : List Nat) : ∀ b : Nat,
    List.Pairwise (fun x y : Nat × Nat => x.1 + x.2 ≤ y.1) ((bump b ns).zip ns) := by
  induction ns with
  | nil => intro b; simp [bump]
  | cons n ns ih =>
    intro b
    simp only [bump, List.zip_cons_cons, List.pairwise_cons]
    refine ⟨?_, ih (b + n)⟩
    intro y hy
    have := le_of_mem_bump ns (b + n) y.1 (List.of_mem_zip (a := y.1) (b := y.2) hy).1
    simpa using this

/-- C18 (as stated, refuted): after `malloc(0xFFFFFFFF)` the 32-bit pointer `base`
has wrapped, so the second `malloc` returns `0x407FFF`, below the first block and
not `0x408000 + 0xFFFFFFFF`, and the third returns `0x408000` again. -/
theorem C18_pointer_wraps :
    (heap_run malloc_base [.malloc 0xFFFFFFFF, .malloc 1, .malloc 1]).1 =
      [0x408000, 0x407FFF, 0x408000] := by
  decide

/-- C18 (amended): for every sequence of `malloc` and `free` calls whose `malloc`
sizes `n1, ..., nk` keep `0x408000 + n1 + ... + nk` below `2^32`, the `i`-th
`malloc` returns `0x408000 + n1 + ... + n(i-1)`; the returned addresses never
decrease, each block ends before the later ones start, and a `free` changes
nothing of what later calls return. -/
theorem C18_bump_allocator (cs : List HeapCall)
    (hfit : malloc_base + (malloc_sizes cs).sum < 2 ^ 32) :
    malloc_base = 0x408000 ∧
    (∀ i : Nat, i < (malloc_sizes cs).length →
      (heap_run malloc_base cs).1[i]? = some (0x408000 + ((malloc_sizes cs).take i).sum)) ∧
    (heap_run malloc_base cs).1.length = (malloc_sizes cs).length ∧
    List.Pairwise (fun x y => x ≤ y) (heap_run malloc_base cs).1 ∧
    List.Pairwise (fun x y : Nat × Nat => x.1 + x.2 ≤ y.1)
      ((heap_run malloc_base cs).1.zip (malloc_sizes cs)) ∧
    ∀ (base ptr : Nat) (later : List HeapCall),
      heap_run base (.free ptr :: later) = heap_run base later := by
  have h := heap_run_bump cs malloc_base hfit
  refine ⟨rfl, ?_, ?_, ?_, ?_, fun _ _ _ => rfl⟩
  · intro i hi
    rw [h, bump_getElem? _ _ _ hi]
    rfl
  · rw [h]
    generalize malloc_sizes cs = ns
    generalize malloc_base = b
    induction ns generalizing b with
    | nil => rfl
    | cons n ns ih => simp [bump, ih]
  · rw [h]; exact bump_sorted _ _
  · rw [h]; exact bump_disjoint _ _

/-- C18 (amended), instance: `malloc(16)`, `free`, `malloc(32)`, `malloc(8)`. -/
theorem C18_bump_allocator_witness :
    malloc_base + (malloc_sizes [.malloc 16, .free 0x408000, .malloc 32, .malloc 8]).sum < 2 ^ 32 ∧
    (heap_run malloc_base [.malloc 16, .free 0x408000, .malloc 32, .malloc 8]).1 =
      [0x408000, 0x408010, 0x408030] ∧
    List.Pairwise (fun x y => x ≤ y)
      (heap_run malloc_base [.malloc 16, .free 0x408000, .malloc 32, .malloc 8]).1 :=
  ⟨by decide, by decide,
    (C18_bump_allocator [.malloc 16, .free 0x408000, .malloc 32, .malloc 8] (by decide)).2.2.2.1⟩

/-! ## C19: edge cases of `find` -/

/-- C19: for a non-empty `str`, `find(str, "")` returns `str` itself; for the empty
`str`, `find` returns `NULL` whatever the token, the empty token included, so the
empty command line selects the default variant `RPI`.  The same holds of `find` on
pointers: with an empty token it returns `str` when `*str` is not NUL, and when
`*str` is NUL it returns `NULL` after reading that one character. -/
theorem C19_find_edge_cases :
    (∀ (c : Char) (s : List Char), find (c :: s) [] = some (c :: s)) ∧
    (∀ t : List Char, find [] t = none) ∧
    arch_info [] = .RPI ∧
    (∀ (mem : Nat → Char) (str token fuel : Nat), mem str ≠ NUL → mem token = NUL →
      ∃ rd, find_ptr mem (fuel + 1) str token = some (some str, rd)) ∧
    (∀ (mem : Nat → Char) (str token fuel : Nat), mem str = NUL →
      find_ptr mem (fuel + 1) str token = some (none, [str])) := by
  refine ⟨fun c s => by simp [find, matchToken], fun t => rfl, by decide, ?_, ?_⟩
  · intro mem str token fuel hs ht
    have hne : ¬ mem str = mem token := by rw [ht]; exact hs
    exact ⟨[str, str, token, token], by simp [find_ptr, find_scan, hs, hne, ht]⟩
  · intro mem str token fuel hs
    simp [find_ptr, hs]

/-! ## C20: `memcpy` -/

/-- One pass of the loop of `memcpy` when the counter is below `n`. -/
theorem memcpy_loop_step (dest src n i : Nat) (mem : Mem) (h : i < n % 2 ^ 32) :
    memcpy_loop dest src n i mem =
      memcpy_loop dest src n ((i + 1) % 2 ^ 32)
        (mem.write ((dest + i) % 2 ^ 32) (mem ((src + i) % 2 ^ 32))) := by
  rw [memcpy_loop, if_pos h]

/-- The loop of `memcpy` is left when the counter reaches `n`. -/
theorem memcpy_loop_done (dest src n i : Nat) (mem : Mem) (h : ¬ i < n % 2 ^ 32) :
    memcpy_loop dest src n i mem = mem := by
  rw [memcpy_loop, if_neg h]

/-- The loop of `memcpy` entered at `i`, on regions that do not overlap: the rest of
the destination receives the rest of the source, and nothing else changes. -/
theorem memcpy_loop_spec (dest src n : Nat) (hn : n < 2 ^ 32) (hdest : dest + n ≤ 2 ^ 32)
    (hsrc : src + n ≤ 2 ^ 32) (hdis : dest + n ≤ src ∨ src + n ≤ dest) :
    ∀ (k i : Nat) (mem : Mem), i + k = n →
      (∀ j, i ≤ j → j < n → memcpy_loop dest src n i mem (dest + j) = mem (src + j)) ∧
      (∀ a, a < dest + i ∨ dest + n ≤ a → memcpy_loop dest src n i mem a = mem a) := by
  intro k
  induction k with
  | zero =>
    intro i mem hik
    have hdone : ¬ i < n % 2 ^ 32 := by rw [Nat.mod_eq_of_lt hn]; omega
    rw [memcpy_loop_done dest src n i mem hdone]
    exact ⟨fun j h1 h2 => by omega, fun _ _ => rfl⟩
  | succ k ih =>
    intro i mem hik
    have hlt : i < n % 2 ^ 32 := by rw [Nat.mod_eq_of_lt hn]; omega
    have hw : (i + 1) % 2 ^ 32 = i + 1 := Nat.mod_eq_of_lt (by omega)
    have hd : (dest + i) % 2 ^ 32 = dest + i := Nat.mod_eq_of_lt (by omega)
    have hs : (src + i) % 2 ^ 32 = src + i := Nat.mod_eq_of_lt (by omega)
    rw [memcpy_loop_step dest src n i mem hlt, hw, hd, hs]
    obtain ⟨ih1, ih2⟩ := ih (i + 1) (mem.write (dest + i) (mem (src + i))) (by omega)
    constructor
    · intro j h1 h2
      by_cases hj : j = i
      · subst hj
        rw [ih2 (dest + j) (Or.inl (by omega))]
        simp [Mem.write]
      · rw [ih1 j (by omega) h2]
        have : src + j ≠ dest + i := by omega
        simp [Mem.write, this]
    · intro a ha
      rw [ih2 a (by omega)]
      have : a ≠ dest + i := by omega
      simp [Mem.write, this]

/-- C20: for every `n < 2^31` and every two regions of `n` octets at `dest` and
`src` that do not overlap, `memcpy(dest, src, n)` returns `dest` and leaves
`dest[i] = src[i]` for all `i < n` and every octet outside the destination region,
the source included, as it was.  With `n = 0` it changes nothing, whatever the
pointers. -/
theorem C20_memcpy (mem : Mem) (dest src n : Nat) (hn : n < 2 ^ 31)
    (hdest : dest + n ≤ 2 ^ 32) (hsrc : src + n ≤ 2 ^ 32)
    (hdis : dest + n ≤ src ∨ src + n ≤ dest) :
    (memcpy mem dest src n).1 = dest ∧
    (∀ i, i < n → (memcpy mem dest src n).2 (dest + i) = mem (src + i)) ∧
    (∀ a, a < dest ∨ dest + n ≤ a → (memcpy mem dest src n).2 a = mem a) ∧
    (∀ i, i < n → (memcpy mem dest src n).2 (src + i) = mem (src + i)) ∧
    ∀ (m : Mem) (d s : Nat), memcpy m d s 0 = (d, m) := by
  obtain ⟨h1, h2⟩ := memcpy_loop_spec dest src n (by omega) hdest hsrc hdis n 0 mem (by omega)
  refine ⟨rfl, fun i hi => h1 i (Nat.zero_le _) hi, fun a ha => h2 a (by omega), ?_, ?_⟩
  · intro i hi
    exact h2 (src + i) (by omega)
  · intro m d s
    simp only [memcpy]
    rw [memcpy_loop_done d s 0 0 m (by simp)]

/-- C20, instance: four octets copied from `0x1000` to `0x2000`. -/
theorem C20_memcpy_witness :
    ((4 : Nat) < 2 ^ 31 ∧ 0x2000 + 4 ≤ 2 ^ 32 ∧ 0x1000 + 4 ≤ 2 ^ 32 ∧
      (0x2000 + 4 ≤ 0x1000 ∨ 0x1000 + 4 ≤ 0x2000)) ∧
    (memcpy mem0 0x2000 0x1000 4).1 = 0x2000 ∧
    ∀ i, i < 4 → (memcpy mem0 0x2000 0x1000 4).2 (0x2000 + i) = mem0 (0x1000 + i) :=
  ⟨by decide,
    (C20_memcpy mem0 0x2000 0x1000 4 (by decide) (by decide) (by decide) (by decide)).1,
    (C20_memcpy mem0 0x2000 0x1000 4 (by decide) (by decide) (by decide) (by decide)).2.1⟩

end Raspbootin
